import Mathlib

/-!
# Verification of the a2o Verilator test bench (`dev/sim/verilator/tb_litex.cpp`)

Shallow embedding of the sparse `Memory` model, the Wishbone responder step and
the run loop of `main`, followed by the theorems that settle the specification
claims.

Conventions of the embedding:

* `unsigned int` values are natural numbers below `2^32`; arithmetic that can
  wrap is reduced `% 2^32` explicitly.
* `int` values (`defaultVal`, the result of `read`) are integers; the two
  conversions of the C++ code between `int` and `unsigned int` are `toU32` and
  `toI32`.
* `std::unordered_map<unsigned, unsigned>` is a partial function
  `Nat → Option Nat`.
* the records that `Memory::write` sends to `std::cout` are collected, in
  order, in the field `cout` of the memory; the progress lines that `main`
  prints and the waveform dump do not influence any state and are left out.
* the Verilated device is a parameter: an arbitrary state type with its
  evaluation function, its output lines and its completion flag.
-/

namespace TbLitex

/-! ## Machine integers -/

/-- Conversion of an `int` to `unsigned int` (value modulo `2^32`). -/
def toU32 (i : Int) : Nat := (i % 4294967296).toNat

/-- Conversion of an `unsigned int` to `int` (two's complement). -/
def toI32 (n : Nat) : Int :=
  if n % 4294967296 < 2147483648 then ((n % 4294967296 : Nat) : Int)
  else ((n % 4294967296 : Nat) : Int) - 4294967296

/-- Bitwise complement of a 32-bit pattern (`~mask`). -/
def not32 (n : Nat) : Nat := 4294967295 ^^^ n

/-- Byte lane `i` (0 = least significant) of a 32-bit word. -/
def byteLane (w : Nat) (i : Nat) : Nat := (w >>> (8 * i)) % 256

/-! ## class Memory -/

/-- One line ` * Mem Update @adr startDat->dat` written to `std::cout`. -/
structure MemUpdate where
  adr : Nat
  startDat : Nat
  dat : Nat
  deriving DecidableEq, Repr

/-- The C++ `class Memory`: the map `mem` and the three public fields, with the
store log it has emitted so far. -/
structure Memory where
  mem : Nat → Option Nat
  le : Bool
  logStores : Bool
  defaultVal : Int
  cout : List MemUpdate

namespace Memory

/-- `Memory::Memory()`. -/
def new : Memory :=
  { mem := fun _ => none, le := false, logStores := true, defaultVal := 0, cout := [] }

/-- `int Memory::read(unsigned int adr)`. -/
def read (self : Memory) (adr : Nat) : Int :=
  match self.mem adr with
  | some w => toI32 w
  | none => self.defaultVal

/-- `this->mem[adr] = dat`. -/
def store (self : Memory) (adr dat : Nat) : Memory :=
  { self with mem := fun k => if k = adr then some dat else self.mem k }

/-- The conditional log line at the end of both `write` overloads. -/
def logStore (self : Memory) (adr startDat dat : Nat) : Memory :=
  if self.logStores then
    { self with cout := self.cout ++ [{ adr := adr, startDat := startDat, dat := dat }] }
  else self

/-- `void Memory::write(unsigned int adr, unsigned int dat)`. -/
def write (self : Memory) (adr dat : Nat) : Memory :=
  let startDat := toU32 (self.read adr)
  (self.store adr dat).logStore adr startDat dat

/-- The byte-enable decoding of the masked write: the value of `mask` when the
last `if` has been executed. `be` is nonzero here. The last test of the source
is the assignment `be = 1`, whose value is `1`, so its branch is always taken. -/
def decodeMask (be : Nat) : Nat :=
  let r8 : Nat × Nat := if be ≥ 8 then (be - 8, 0xFF000000) else (be, 0)
  let r4 : Nat × Nat := if r8.1 ≥ 4 then (r8.1 - 4, r8.2 ||| 0x00FF0000) else r8
  let r2 : Nat × Nat := if r4.1 ≥ 2 then (r4.1 - 2, r4.2 ||| 0x0000FF00) else r4
  let r1 : Nat × Nat := (1, r2.2)
  if r1.1 ≠ 0 then r1.2 ||| 0x000000FF else r1.2

/-- `void Memory::write(unsigned int adr, unsigned int be, unsigned int dat)`. -/
def writeMasked (self : Memory) (adr be dat : Nat) : Memory :=
  if be = 0 then self
  else
    let mask := decodeMask be
    let startDat := self.read adr
    let merged := (toU32 startDat &&& not32 mask) ||| (dat &&& mask)
    (self.store adr merged).logStore adr (toU32 startDat) dat

end Memory

/-! ## Formatted extraction `f >> std::hex >> dat`

The stream is the list of characters that remain to be read. A file that cannot
be opened behaves as the empty stream (the first extraction fails). -/

/-- The whitespace characters that formatted extraction skips (`std::isspace`
of the C locale: space and the control characters 9 to 13). -/
def isSpace (c : Char) : Bool := c.toNat = 32 || (9 ≤ c.toNat && c.toNat ≤ 13)

/-- Value of a hexadecimal digit character, if it is one. -/
def hexDigit (c : Char) : Option Nat :=
  if 48 ≤ c.toNat ∧ c.toNat ≤ 57 then some (c.toNat - 48)
  else if 97 ≤ c.toNat ∧ c.toNat ≤ 102 then some (c.toNat - 87)
  else if 65 ≤ c.toNat ∧ c.toNat ≤ 70 then some (c.toNat - 55)
  else none

def isHex (c : Char) : Bool := (hexDigit c).isSome

/-- Numeric value of a run of hexadecimal digits. -/
def hexValue (ds : List Char) : Nat :=
  ds.foldl (fun acc c => 16 * acc + (hexDigit c).getD 0) 0

/-- Optional sign in front of the number: `(negative, rest)`. -/
def takeSign : List Char → Bool × List Char
  | c :: r =>
    if c.toNat = 45 then (true, r) else if c.toNat = 43 then (false, r) else (false, c :: r)
  | [] => (false, [])

/-- Optional leading zero or `0x` / `0X` prefix: `(foundZero, rest)`. A consumed
zero counts as a digit; a consumed prefix does not. -/
def takePrefix : List Char → Bool × List Char
  | c :: d :: r =>
    if c.toNat = 48 then
      (if d.toNat = 120 ∨ d.toNat = 88 then (false, r) else (true, d :: r))
    else (false, c :: d :: r)
  | [c] => if c.toNat = 48 then (true, []) else (false, [c])
  | [] => (false, [])

/-- One formatted extraction `f >> std::hex >> dat` of an `unsigned int`, as
the C++ standard library performs it on the memory-image text: skip
whitespace, accept an optional sign and `0x` prefix, read the longest run of
hexadecimal digits; the extraction fails when there is no digit or the value
does not fit in 32 bits. On success the result is the value and the rest of the
stream. -/
def extractHex (s : List Char) : Option (Nat × List Char) :=
  let sg := takeSign (s.dropWhile isSpace)
  let pf := takePrefix sg.2
  let ds := pf.2.takeWhile isHex
  let v := hexValue ds
  if ds.isEmpty ∧ pf.1 = false then none
  else if v > 0xFFFFFFFF then none
  else some (if sg.1 then (4294967296 - v) % 4294967296 else v, pf.2.dropWhile isHex)

namespace Memory

/-- The `while (f >> std::hex >> dat) { write(adr, dat); adr += 4; }` loop of
`loadFile`; `fuel` bounds the number of iterations. -/
def loadLoop : Nat → Memory → List Char → Nat → Memory
  | 0, self, _, _ => self
  | fuel + 1, self, f, adr =>
    match extractHex f with
    | some (dat, rest) => loadLoop fuel (self.write adr dat) rest ((adr + 4) % 4294967296)
    | none => self

/-- `void Memory::loadFile(std::string filename, unsigned int adr, bool le,
std::string format)`, with the contents `f` of the file in place of its name.
The parameters `le` and `format` are not used by the source. Every successful
extraction consumes a character, so `f.length + 1` iterations exhaust the
stream. -/
def loadFile (self : Memory) (f : List Char) (adr : Nat) : Memory :=
  loadLoop (f.length + 1) self f adr

/-- Writing a list of words at consecutive word addresses, as `loadFile` does
with the words it extracts. -/
def writeWords (self : Memory) : List Nat → Nat → Memory
  | [], _ => self
  | w :: ws, adr => writeWords (self.write adr w) ws ((adr + 4) % 4294967296)

end Memory

/-! ## The device under test and the test bench state -/

/-- The bus lines that the device drives and the test bench reads
(`m->wb_cyc`, `m->wb_stb`, `m->wb_we`, `m->wb_sel`, `m->wb_adr`, `m->wb_datw`). -/
structure WbOut where
  wb_cyc : Bool
  wb_stb : Bool
  wb_we : Bool
  wb_sel : Nat
  wb_adr : Nat
  wb_datw : Nat
  deriving DecidableEq, Repr

/-- The lines that the test bench drives into the device. -/
structure TbIn where
  rst : Nat
  clk_1x : Nat
  clk_2x : Nat
  wb_ack : Nat
  wb_datr : Nat
  deriving DecidableEq, Repr

/-- The Verilated model `Va2owb`, a black box with internal state `σ`:
`eval` computes the next internal state from the lines driven by the test
bench, `out` gives the lines the device drives, and `gotFinish` tells whether
the model has requested the end of the simulation (`Verilated::gotFinish()`). -/
structure Va2owb (σ : Type) where
  eval : TbIn → σ → σ
  out : σ → WbOut
  gotFinish : σ → Bool

/-- What the Wishbone block of `main` reads and writes: the two pending flags,
the global memory, and the lines `m->wb_ack` and `m->wb_datr`. -/
structure Wb where
  wbRdPending : Bool
  wbWrPending : Bool
  mem : Memory
  wb_ack : Nat
  wb_datr : Nat

/-- First half of the Wishbone block: `m->wb_ack = 0;` followed by the
`if (wbRdPending) … else if (wbWrPending) …` that retires a pending
transaction. The call of the source is `mem.write(m->wb_adr, m->wb_datw,
m->wb_sel)`, whose second argument is the parameter `be` and whose third is
`dat`. -/
def wbRetire (s : Wb) (o : WbOut) : Wb :=
  let s0 := { s with wb_ack := 0 }
  if s0.wbRdPending then
    { s0 with wb_datr := toU32 (s0.mem.read o.wb_adr), wb_ack := 1, wbRdPending := false }
  else if s0.wbWrPending then
    { s0 with mem := s0.mem.writeMasked o.wb_adr o.wb_datw o.wb_sel, wb_ack := 1,
              wbWrPending := false }
  else s0

/-- Second half of the Wishbone block: the request sampling
`if (!wbRdPending && !wbWrPending && m->wb_cyc && m->wb_stb) …`. -/
def wbSample (s : Wb) (o : WbOut) : Wb :=
  if !s.wbRdPending && !s.wbWrPending && o.wb_cyc && o.wb_stb then
    if !o.wb_we then { s with wbRdPending := true } else { s with wbWrPending := true }
  else s

/-- The Wishbone block executed at a bus-cycle boundary. -/
def wbStep (s : Wb) (o : WbOut) : Wb := wbSample (wbRetire s o) o

/-- The responder state before boundary `n`, for the bus lines `inp i` seen at
boundary `i`, from the state `s0` before boundary `0`. -/
def wbAt (inp : Nat → WbOut) (s0 : Wb) : Nat → Wb
  | 0 => s0
  | n + 1 => wbStep (wbAt inp s0 n) (inp n)

/-- The value of `m->wb_ack` driven at boundary `n`. -/
def ackAt (inp : Nat → WbOut) (s0 : Wb) (n : Nat) : Nat := (wbAt inp s0 (n + 1)).wb_ack

def resetCycle : Nat := 10
def runCycles : Nat := 500
def ticks1x : Nat := 4

/-- The phase table `clocks[4] = {0x3, 0x2, 0x1, 0x0}`. -/
def clocks (i : Nat) : Nat := [3, 2, 1, 0].getD i 0

/-- The local variables of `main` that the run loop uses, the lines driven into
the device and the state of the device. -/
structure Sim (σ : Type) where
  resetDone : Bool
  tick : Nat
  cycle : Nat
  wb : Wb
  rst : Nat
  clk_1x : Nat
  clk_2x : Nat
  dev : σ

/-- The lines the device sees at `m->eval()`. -/
def Sim.pins {σ : Type} (s : Sim σ) : TbIn :=
  { rst := s.rst, clk_1x := s.clk_1x, clk_2x := s.clk_2x, wb_ack := s.wb.wb_ack,
    wb_datr := s.wb.wb_datr }

/-- One pass through the body of the `while` loop of `main`, up to and
excluding the final test `if (cycle > runCycles) break;`. -/
def loopBody {σ : Type} (D : Va2owb σ) (s : Sim σ) : Sim σ :=
  let s1 := if !s.resetDone && decide (s.cycle > resetCycle) then
      { s with rst := 0, resetDone := true } else s
  let s2 := { s1 with clk_1x := clocks (s1.tick % ticks1x) >>> 1,
                      clk_2x := clocks (s1.tick % ticks1x) &&& 1 }
  let s3 := { s2 with tick := (s2.tick + 1) % 4294967296 }
  let s4 := { s3 with dev := D.eval s3.pins s3.dev }
  let s5 := if s4.tick % ticks1x = 0 then { s4 with wb := wbStep s4.wb (D.out s4.dev) } else s4
  if s5.tick % ticks1x = 0 then { s5 with cycle := (s5.cycle + 1) % 4294967296 } else s5

/-- The `while (!Verilated::gotFinish()) { … if (cycle > runCycles) break; }`
loop with cycle ceiling `limit`; `none` when `fuel` iterations do not reach the
exit. -/
def runLoop {σ : Type} (D : Va2owb σ) (limit : Nat) : Nat → Sim σ → Option (Sim σ)
  | 0, _ => none
  | fuel + 1, s =>
    if D.gotFinish s.dev then some s
    else
      let s1 := loopBody D s
      if s1.cycle > limit then some s1 else runLoop D limit fuel s1

/-- The state of `main` when the loop is entered: the boot word and the image
`file` are in memory, reset is asserted, `tick = 0`, `cycle = 1`. The device
starts in state `dev0`, the remaining lines have the values of `p0`. -/
def initSim {σ : Type} (file : List Char) (dev0 : σ) (p0 : TbIn) : Sim σ :=
  { resetDone := false, tick := 0, cycle := 1,
    wb := { wbRdPending := false, wbWrPending := false,
            mem := (Memory.new.write 0xFFFFFFFC 0x48000002).loadFile file 0,
            wb_ack := p0.wb_ack, wb_datr := p0.wb_datr },
    rst := 1, clk_1x := p0.clk_1x, clk_2x := p0.clk_2x, dev := dev0 }

/-! ## Memory images, example states and devices -/

/-- A token that is a hexadecimal 32-bit word: a nonempty run of hexadecimal
digits whose value fits in 32 bits. -/
def isWord (tok : List Char) : Bool :=
  !tok.isEmpty && tok.all isHex && decide (hexValue tok < 4294967296)

/-- A memory image given as tokens, each with the whitespace that follows it:
every token is a hexadecimal word, and only the last token may be followed by
nothing. -/
def validImage : List (List Char × List Char) → Bool
  | [] => true
  | (tok, sep) :: rest =>
    isWord tok && sep.all isSpace && (!sep.isEmpty || rest.isEmpty) && validImage rest

/-- The text of a memory image. -/
def imageText : List (List Char × List Char) → List Char
  | [] => []
  | (tok, sep) :: rest => tok ++ (sep ++ imageText rest)

/-- The words of a memory image. -/
def imageWords (items : List (List Char × List Char)) : List Nat :=
  items.map (fun it => hexValue it.1)

/-- A responder state with a write pending on the freshly constructed memory. -/
def writePendingState : Wb :=
  { wbRdPending := false, wbWrPending := true, mem := Memory.new, wb_ack := 0, wb_datr := 0 }

/-- Bus lines of a full-word write of `0x12345678` at address `0`. -/
def fullWriteLines : WbOut :=
  { wb_cyc := true, wb_stb := true, wb_we := true, wb_sel := 0xF, wb_adr := 0,
    wb_datw := 0x12345678 }

/-- Idle responder state over a memory holding `0x11111111` at address `0` and
`0x22222222` at address `4`. -/
def idleTwoWords : Wb :=
  { wbRdPending := false, wbWrPending := false,
    mem := (Memory.new.write 0 0x11111111).write 4 0x22222222, wb_ack := 0, wb_datr := 0 }

/-- A read request at address `adr`. -/
def readLines (adr : Nat) : WbOut :=
  { wb_cyc := true, wb_stb := true, wb_we := false, wb_sel := 0, wb_adr := adr, wb_datw := 0 }

/-- Bus lines without request, the address line holding `adr`. -/
def quietLines (adr : Nat) : WbOut :=
  { wb_cyc := false, wb_stb := false, wb_we := false, wb_sel := 0, wb_adr := adr, wb_datw := 0 }

/-- A responder state with a read pending. -/
def readPendingState : Wb :=
  { wbRdPending := true, wbWrPending := false, mem := Memory.new, wb_ack := 0, wb_datr := 0 }

/-- Bus lines with a read request at address `8` at boundary `2` only. -/
def readAtTwo (n : Nat) : WbOut := if n = 2 then readLines 8 else quietLines 0

/-- A device that never requests anything and never finishes. -/
def quietDevice : Va2owb Unit :=
  { eval := fun _ d => d, out := fun _ => quietLines 0, gotFinish := fun _ => false }

/-- All lines at zero. -/
def zeroPins : TbIn := { rst := 0, clk_1x := 0, clk_2x := 0, wb_ack := 0, wb_datr := 0 }

/-! ## Stateful read, lane mask and clock signals -/

namespace Memory

/-- The map access `this->mem[adr]` (`operator[]` of `std::unordered_map`): the
value found and the memory afterwards. A key that is absent is inserted with
the value-initialised word `0`. -/
def index (self : Memory) (adr : Nat) : Nat × Memory :=
  match self.mem adr with
  | some w => (w, self)
  | none => (0, self.store adr 0)

/-- `int Memory::read(unsigned int adr)` as a state transformer: the value
returned and the memory object after the call. The branch taken when
`mem.find(adr) != mem.end()` goes through `mem[adr]`. -/
def readM (self : Memory) (adr : Nat) : Int × Memory :=
  if (self.mem adr).isSome then
    let r := self.index adr
    (toI32 r.1, r.2)
  else (self.defaultVal, self)

end Memory

/-- The lane mask in the words of the specification of the code as it is: the
least-significant byte always, and the bytes `0xFF000000`, `0x00FF0000`,
`0x0000FF00` exactly when bit 3, bit 2, bit 1 of the byte enable is set. -/
def laneMask (be : Nat) : Nat :=
  0x000000FF ||| (if be.testBit 3 then 0xFF000000 else 0)
    ||| (if be.testBit 2 then 0x00FF0000 else 0)
    ||| (if be.testBit 1 then 0x0000FF00 else 0)

/-- The value `clocks[t % ticks1x] >> 1` of the 1x clock for tick `t`. -/
def clk_1x_at (t : Nat) : Nat := clocks (t % ticks1x) >>> 1

/-- The value `clocks[t % ticks1x] & 0x1` of the 2x clock for tick `t`. -/
def clk_2x_at (t : Nat) : Nat := clocks (t % ticks1x) &&& 1

/-- Number of tick steps `i → i + 1` with `t ≤ i < t + n` at which the signal
`f` changes. -/
def transitions (f : Nat → Nat) (t n : Nat) : Nat :=
  ((List.range n).filter (fun i => decide (f (t + i + 1) ≠ f (t + i)))).length

/-- A responder state with both flags clear over the freshly constructed
memory. -/
def idleState : Wb :=
  { wbRdPending := false, wbWrPending := false, mem := Memory.new, wb_ack := 0, wb_datr := 0 }

/-- Bus lines that request a read at every even boundary and a write at every
odd boundary. -/
def busyLines (n : Nat) : WbOut := if n % 2 = 0 then readLines (4 * n) else fullWriteLines

/-! ## Evaluation points of the run loop -/

/-- The state at the call `m->eval()` of the loop iteration that starts in
`s`: the part of the loop body before the call (reset release, clock drive,
`tick++`) has been executed. -/
def preEval {σ : Type} (s : Sim σ) : Sim σ :=
  let s1 := if !s.resetDone && decide (s.cycle > resetCycle) then
      { s with rst := 0, resetDone := true } else s
  let s2 := { s1 with clk_1x := clocks (s1.tick % ticks1x) >>> 1,
                      clk_2x := clocks (s1.tick % ticks1x) &&& 1 }
  { s2 with tick := (s2.tick + 1) % 4294967296 }

/-- The state after `n` passes through the loop body. -/
def simIter {σ : Type} (D : Va2owb σ) (s : Sim σ) : Nat → Sim σ
  | 0 => s
  | n + 1 => loopBody D (simIter D s n)

/-- The state at the device evaluation of iteration `j` (counted from `0`). -/
def evalAt {σ : Type} (D : Va2owb σ) (s : Sim σ) (j : Nat) : Sim σ := preEval (simIter D s j)

/-- The states at the device evaluations that the run loop performs, in order:
the loop of `runLoop` with the state at each `m->eval()` recorded. With too
little fuel the list is a prefix of the evaluations of the run. -/
def runTrace {σ : Type} (D : Va2owb σ) (limit : Nat) : Nat → Sim σ → List (Sim σ)
  | 0, _ => []
  | fuel + 1, s =>
    if D.gotFinish s.dev then []
    else
      preEval s ::
        (if (loopBody D s).cycle > limit then [] else runTrace D limit fuel (loopBody D s))

/-- A device that records the lines it sees at its last evaluation. -/
def probeDevice : Va2owb TbIn :=
  { eval := fun p _ => p, out := fun _ => quietLines 0, gotFinish := fun _ => false }

/-- Bus lines of a read request at address `0` that is held at the boundaries
`0` and `1` and released afterwards. -/
def heldRead (n : Nat) : WbOut := if n < 2 then readLines 0 else quietLines 0

/-- A device that keeps the list of the lines it has received, one entry for
each call of `eval`, oldest first. -/
def logDevice : Va2owb (List TbIn) :=
  { eval := fun p l => l ++ [p], out := fun _ => quietLines 0, gotFinish := fun _ => false }

/-- The initial state of a run of the logging device on the two-word image. -/
def logInit : Sim (List TbIn) := initSim "00000001 00000002".toList [] zeroPins

/-! ## Memory: basic lemmas -/

theorem toU32_toI32 (n : Nat) (h : n < 4294967296) : toU32 (toI32 n) = n := by
  unfold toU32 toI32
  split <;> omega

theorem Memory.read_logStore (m : Memory) (adr s d b : Nat) :
    (m.logStore adr s d).read b = m.read b := by
  unfold Memory.logStore
  by_cases h : m.logStores = true
  · rw [if_pos h]; rfl
  · rw [if_neg h]

theorem Memory.read_store_same (m : Memory) (adr dat : Nat) :
    (m.store adr dat).read adr = toI32 dat := by
  simp [Memory.store, Memory.read]

theorem Memory.read_store_other (m : Memory) (adr dat b : Nat) (h : b ≠ adr) :
    (m.store adr dat).read b = m.read b := by
  simp [Memory.store, Memory.read, h]

theorem Memory.read_write_same (m : Memory) (adr dat : Nat) :
    (m.write adr dat).read adr = toI32 dat := by
  simp [Memory.write, Memory.read_logStore, Memory.read_store_same]

theorem Memory.read_write_other (m : Memory) (adr dat b : Nat) (h : b ≠ adr) :
    (m.write adr dat).read b = m.read b := by
  simp [Memory.write, Memory.read_logStore, Memory.read_store_other, h]

/-! ## Extraction of the words of a memory image -/

theorem isHex_iff (c : Char) :
    isHex c = true ↔
      (48 ≤ c.toNat ∧ c.toNat ≤ 57) ∨ (97 ≤ c.toNat ∧ c.toNat ≤ 102) ∨
        (65 ≤ c.toNat ∧ c.toNat ≤ 70) := by
  unfold isHex hexDigit
  split_ifs <;> simp <;> omega

theorem isSpace_iff (c : Char) :
    isSpace c = true ↔ c.toNat = 32 ∨ (9 ≤ c.toNat ∧ c.toNat ≤ 13) := by
  simp [isSpace]

theorem isHex_of_isSpace (c : Char) (h : isSpace c = true) : isHex c = false := by
  have h1 := (isSpace_iff c).1 h
  have h2 := isHex_iff c
  cases hx : isHex c with
  | false => rfl
  | true => have := h2.1 hx; omega

theorem isSpace_of_isHex (c : Char) (h : isHex c = true) : isSpace c = false := by
  cases hs : isSpace c with
  | false => rfl
  | true => rw [isHex_of_isSpace c hs] at h; cases h

theorem dropWhile_isSpace_append (ws f : List Char) (h : ∀ c ∈ ws, isSpace c = true) :
    (ws ++ f).dropWhile isSpace = f.dropWhile isSpace := by
  induction ws with
  | nil => rfl
  | cons c t ih =>
    have hc : isSpace c = true := h c (List.mem_cons_self c t)
    simp only [List.cons_append, List.dropWhile_cons, hc, if_true]
    exact ih (fun d hd => h d (List.mem_cons_of_mem c hd))

theorem takeWhile_isHex_append (t r : List Char) (ht : ∀ c ∈ t, isHex c = true)
    (hr : ∀ c, r.head? = some c → isHex c = false) :
    (t ++ r).takeWhile isHex = t ∧ (t ++ r).dropWhile isHex = r := by
  induction t with
  | nil =>
    cases r with
    | nil => exact ⟨rfl, rfl⟩
    | cons c r =>
      have hc : isHex c = false := hr c rfl
      simp [List.takeWhile_cons, List.dropWhile_cons, hc]
  | cons c t ih =>
    have hc : isHex c = true := ht c (List.mem_cons_self c t)
    have := ih (fun d hd => ht d (List.mem_cons_of_mem c hd))
    simp [List.takeWhile_cons, List.dropWhile_cons, hc, this]

theorem takeSign_of_isHex (c : Char) (l : List Char) (h : isHex c = true) :
    takeSign (c :: l) = (false, c :: l) := by
  have hc := (isHex_iff c).1 h
  have h45 : c.toNat ≠ 45 := by omega
  have h43 : c.toNat ≠ 43 := by omega
  simp [takeSign, h45, h43]

theorem takePrefix_nonzero (c : Char) (l : List Char) (h : c.toNat ≠ 48) :
    takePrefix (c :: l) = (false, c :: l) := by
  cases l with
  | nil => simp [takePrefix, h]
  | cons d r => simp [takePrefix, h]

theorem takePrefix_zero (c : Char) (l : List Char) (h : c.toNat = 48)
    (hl : ∀ d, l.head? = some d → d.toNat ≠ 120 ∧ d.toNat ≠ 88) :
    takePrefix (c :: l) = (true, l) := by
  cases l with
  | nil => simp [takePrefix, h]
  | cons d r =>
    have hd := hl d rfl
    simp [takePrefix, h, hd.1, hd.2]

theorem hexValue_cons_zero (c : Char) (t : List Char) (h : c.toNat = 48) :
    hexValue (c :: t) = hexValue t := by
  have hd : hexDigit c = some 0 := by simp [hexDigit, h]
  simp [hexValue, hd]

theorem head_append_not_x (t r : List Char) (ht : ∀ c ∈ t, isHex c = true)
    (hr : ∀ c, r.head? = some c → isSpace c = true) :
    ∀ d, (t ++ r).head? = some d → d.toNat ≠ 120 ∧ d.toNat ≠ 88 := by
  intro d hd
  cases t with
  | nil =>
    have := (isSpace_iff d).1 (hr d hd)
    omega
  | cons c t =>
    simp only [List.cons_append, List.head?_cons, Option.some.injEq] at hd
    subst hd
    have := (isHex_iff c).1 (ht c (List.mem_cons_self c t))
    omega

/-- Extraction of a hexadecimal word followed by whitespace or by nothing
yields the value of the word and leaves what follows it. -/
theorem extractHex_word (tok r : List Char) (hw : isWord tok = true)
    (hr : ∀ c, r.head? = some c → isSpace c = true) :
    extractHex (tok ++ r) = some (hexValue tok, r) := by
  simp only [isWord, Bool.and_eq_true, Bool.not_eq_true', List.all_eq_true,
    decide_eq_true_eq] at hw
  obtain ⟨⟨hne, hall⟩, hval⟩ := hw
  cases tok with
  | nil => simp at hne
  | cons c t =>
    have hc : isHex c = true := hall c (List.mem_cons_self c t)
    have ht : ∀ d ∈ t, isHex d = true := fun d hd => hall d (List.mem_cons_of_mem c hd)
    have hsp : isSpace c = false := isSpace_of_isHex c hc
    have hrh : ∀ d, r.head? = some d → isHex d = false :=
      fun d hd => isHex_of_isSpace d (hr d hd)
    have hdrop : ((c :: t) ++ r).dropWhile isSpace = c :: (t ++ r) := by
      simp [List.dropWhile_cons, hsp]
    unfold extractHex
    rw [hdrop, takeSign_of_isHex c (t ++ r) hc]
    dsimp only
    by_cases h48 : c.toNat = 48
    · rw [takePrefix_zero c (t ++ r) h48 (head_append_not_x t r ht hr)]
      have htw := takeWhile_isHex_append t r ht hrh
      rw [hexValue_cons_zero c t h48] at hval ⊢
      simp only [htw.1, htw.2]
      have hle : ¬ hexValue t > 4294967295 := by omega
      simp [hle]
    · rw [takePrefix_nonzero c (t ++ r) h48]
      have htw := takeWhile_isHex_append (c :: t) r hall hrh
      simp only [List.cons_append] at htw
      simp only [htw.1, htw.2]
      have hle : ¬ hexValue (c :: t) > 4294967295 := by omega
      simp [hle]

theorem extractHex_skip (ws f : List Char) (h : ∀ c ∈ ws, isSpace c = true) :
    extractHex (ws ++ f) = extractHex f := by
  unfold extractHex
  rw [dropWhile_isSpace_append ws f h]

theorem Memory.loadLoop_skip (fuel : Nat) (m : Memory) (ws f : List Char) (adr : Nat)
    (h : ∀ c ∈ ws, isSpace c = true) :
    Memory.loadLoop fuel m (ws ++ f) adr = Memory.loadLoop fuel m f adr := by
  cases fuel with
  | zero => rfl
  | succ k => simp only [Memory.loadLoop, extractHex_skip ws f h]

theorem validImage_cons (tok sep : List Char) (rest : List (List Char × List Char))
    (h : validImage ((tok, sep) :: rest) = true) :
    isWord tok = true ∧ (∀ c ∈ sep, isSpace c = true) ∧ (sep = [] → rest = []) ∧
      validImage rest = true := by
  simp only [validImage, Bool.and_eq_true, Bool.or_eq_true, Bool.not_eq_true',
    List.all_eq_true, List.isEmpty_eq_true, List.isEmpty_eq_false] at h
  obtain ⟨⟨⟨h1, h2⟩, h3⟩, h4⟩ := h
  refine ⟨h1, h2, ?_, h4⟩
  intro hs
  cases h3 with
  | inl h => exact absurd hs h
  | inr h => exact h

theorem isWord_of_mem (items : List (List Char × List Char))
    (h : validImage items = true) : ∀ it ∈ items, isWord it.1 = true := by
  induction items with
  | nil => intro it hit; cases hit
  | cons hd rest ih =>
    obtain ⟨tok, sep⟩ := hd
    have hv := validImage_cons tok sep rest h
    intro it hit
    rcases List.mem_cons.1 hit with rfl | hmem
    · exact hv.1
    · exact ih hv.2.2.2 it hmem

theorem isWord_length_pos (tok : List Char) (h : isWord tok = true) : 0 < tok.length := by
  cases tok with
  | nil => simp [isWord] at h
  | cons c t => simp

theorem isWord_value_lt (tok : List Char) (h : isWord tok = true) :
    hexValue tok < 4294967296 := by
  simp only [isWord, Bool.and_eq_true, decide_eq_true_eq] at h
  exact h.2

/-- On the text of a valid image the load loop writes exactly the words of the
image, provided the fuel exceeds the length of the text. -/
theorem Memory.loadLoop_image (items : List (List Char × List Char)) :
    ∀ (fuel : Nat) (m : Memory) (adr : Nat), validImage items = true →
      (imageText items).length < fuel →
      Memory.loadLoop fuel m (imageText items) adr
        = Memory.writeWords m (imageWords items) adr := by
  induction items with
  | nil =>
    intro fuel m adr _ hf
    cases fuel with
    | zero => simp at hf
    | succ k => rfl
  | cons hd rest ih =>
    obtain ⟨tok, sep⟩ := hd
    intro fuel m adr hv hf
    obtain ⟨hw, hsep, hlast, hrest⟩ := validImage_cons tok sep rest hv
    have hpos := isWord_length_pos tok hw
    cases fuel with
    | zero => simp at hf
    | succ k =>
      have hr : ∀ c, (sep ++ imageText rest).head? = some c → isSpace c = true := by
        intro c hc
        cases sep with
        | nil =>
          rw [hlast rfl] at hc
          simp [imageText] at hc
        | cons d sep =>
          simp only [List.cons_append, List.head?_cons, Option.some.injEq] at hc
          subst hc
          exact hsep d (List.mem_cons_self d sep)
      have hlen : (imageText rest).length < k := by
        simp only [imageText, List.length_append, Nat.lt_succ_iff] at hf
        omega
      simp only [imageText, Memory.loadLoop, extractHex_word tok _ hw hr]
      rw [Memory.loadLoop_skip k _ sep (imageText rest) _ hsep, ih k _ _ hrest hlen]
      simp [imageWords, Memory.writeWords]

theorem Memory.loadFile_image_eq (m : Memory) (lead : List Char)
    (items : List (List Char × List Char)) (adr : Nat)
    (hlead : ∀ c ∈ lead, isSpace c = true) (hv : validImage items = true) :
    m.loadFile (lead ++ imageText items) adr = m.writeWords (imageWords items) adr := by
  unfold Memory.loadFile
  rw [Memory.loadLoop_skip _ m lead (imageText items) adr hlead]
  apply Memory.loadLoop_image items _ m adr hv
  simp only [List.length_append]
  omega

/-- Frame of `writeWords`: an address that is none of the written ones keeps
its reading. -/
theorem Memory.read_writeWords_other (ws : List Nat) :
    ∀ (m : Memory) (adr c : Nat), adr < 4294967296 →
      (∀ i, i < ws.length → c ≠ (adr + 4 * i) % 4294967296) →
      (m.writeWords ws adr).read c = m.read c := by
  induction ws with
  | nil => intro m adr c _ _; rfl
  | cons w ws ih =>
    intro m adr c hadr h
    have hca : c ≠ adr := by
      have := h 0 (by simp)
      omega
    simp only [Memory.writeWords]
    rw [ih _ _ _ (Nat.mod_lt _ (by decide))]
    · exact Memory.read_write_other m adr w c hca
    · intro i hi
      have := h (i + 1) (by simp; omega)
      omega

/-- The `i`-th word written by `writeWords` is read back at the `i`-th word
address, as long as the addresses do not wrap onto each other. -/
theorem Memory.read_writeWords_same (ws : List Nat) :
    ∀ (m : Memory) (adr i : Nat) (hi : i < ws.length), adr < 4294967296 →
      ws.length ≤ 1073741824 →
      (m.writeWords ws adr).read ((adr + 4 * i) % 4294967296) = toI32 (ws.get ⟨i, hi⟩) := by
  induction ws with
  | nil => intro m adr i hi; simp at hi
  | cons w ws ih =>
    intro m adr i hi hadr hlen
    simp only [List.length_cons] at hlen hi
    simp only [Memory.writeWords]
    cases i with
    | zero =>
      have h0 : (adr + 4 * 0) % 4294967296 = adr := by omega
      rw [h0, Memory.read_writeWords_other ws _ _ adr (Nat.mod_lt _ (by decide))]
      · exact Memory.read_write_same m adr w
      · intro j hj
        omega
    | succ k =>
      have hk : k < ws.length := by omega
      have ha : (adr + 4 * (k + 1)) % 4294967296
          = ((adr + 4) % 4294967296 + 4 * k) % 4294967296 := by omega
      rw [ha, ih (m.write adr w) _ k hk (Nat.mod_lt _ (by decide)) (by omega)]
      rfl

/-! ## The fuel of `loadFile` is sufficient -/

theorem takeSign_length (l : List Char) : (takeSign l).2.length ≤ l.length := by
  cases l with
  | nil => simp [takeSign]
  | cons c r =>
    simp only [takeSign]
    split_ifs <;> simp

theorem takePrefix_length (l : List Char) :
    (takePrefix l).2.length ≤ l.length ∧
      ((takePrefix l).1 = true → (takePrefix l).2.length < l.length) := by
  match l with
  | [] => simp [takePrefix]
  | [c] =>
    simp only [takePrefix]
    split_ifs <;> simp
  | c :: d :: r =>
    simp only [takePrefix]
    split_ifs
    · simp; omega
    · simp
    · simp

theorem takeWhile_dropWhile_length (p : Char → Bool) (l : List Char) :
    (l.takeWhile p).length + (l.dropWhile p).length = l.length := by
  rw [← List.length_append, List.takeWhile_append_dropWhile]

/-- A successful extraction consumes at least one character. -/
theorem extractHex_length (f rest : List Char) (v : Nat)
    (h : extractHex f = some (v, rest)) : rest.length < f.length := by
  unfold extractHex at h
  dsimp only at h
  by_cases h1 : ((takePrefix (takeSign (f.dropWhile isSpace)).2).2.takeWhile isHex).isEmpty
      = true ∧ (takePrefix (takeSign (f.dropWhile isSpace)).2).1 = false
  · rw [if_pos h1] at h; cases h
  rw [if_neg h1] at h
  by_cases h2 : hexValue ((takePrefix (takeSign (f.dropWhile isSpace)).2).2.takeWhile isHex)
      > 4294967295
  · rw [if_pos h2] at h; cases h
  rw [if_neg h2] at h
  simp only [Option.some.injEq, Prod.mk.injEq] at h
  obtain ⟨_, hrest⟩ := h
  subst hrest
  have ha := takeWhile_dropWhile_length isSpace f
  have hb := takeSign_length (f.dropWhile isSpace)
  have hc := takePrefix_length (takeSign (f.dropWhile isSpace)).2
  have hd := takeWhile_dropWhile_length isHex (takePrefix (takeSign (f.dropWhile isSpace)).2).2
  by_cases hz : (takePrefix (takeSign (f.dropWhile isSpace)).2).1 = true
  · have := hc.2 hz
    omega
  · have hne : ¬ ((takePrefix (takeSign (f.dropWhile isSpace)).2).2.takeWhile isHex).isEmpty
        = true := by
      intro he
      exact h1 ⟨he, by simpa using hz⟩
    have hpos : 0 < ((takePrefix (takeSign (f.dropWhile isSpace)).2).2.takeWhile isHex).length := by
      cases hl : (takePrefix (takeSign (f.dropWhile isSpace)).2).2.takeWhile isHex with
      | nil => rw [hl] at hne; simp at hne
      | cons c t => simp
    omega

/-- With at least `f.length + 1` iterations allowed the load loop gives the
result of `loadFile`: it always stops by a failed extraction, never by lack
of fuel. -/
theorem Memory.loadLoop_fuel (fuel : Nat) :
    ∀ (m : Memory) (f : List Char) (adr : Nat) (extra : Nat), f.length < fuel →
      Memory.loadLoop (fuel + extra) m f adr = Memory.loadLoop fuel m f adr := by
  induction fuel with
  | zero => intro m f adr extra h; omega
  | succ k ih =>
    intro m f adr extra h
    have hf : k + 1 + extra = (k + extra) + 1 := by omega
    rw [hf]
    simp only [Memory.loadLoop]
    cases hx : extractHex f with
    | none => rfl
    | some pr =>
      obtain ⟨v, rest⟩ := pr
      have := extractHex_length f rest v hx
      exact ih _ rest _ extra (by omega)

/-! ## Claims on the memory model -/

/-- C1 (code defect): with `v1 = 0`, `v2 = 0xFFFFFFFF` and byte enable `8`
(bit 0 clear), the masked write still replaces the least-significant lane:
`read(0)` is `0xFF0000FF`, so lane 0 holds byte 0 of `v2` and not byte 0 of
`v1`. -/
theorem masked_write_lane0_not_gated :
    Nat.testBit 8 0 = false ∧
    toU32 (((Memory.new.write 0 0).writeMasked 0 8 0xFFFFFFFF).read 0) = 0xFF0000FF ∧
    byteLane (toU32 (((Memory.new.write 0 0).writeMasked 0 8 0xFFFFFFFF).read 0)) 0
      = byteLane 0xFFFFFFFF 0 ∧
    byteLane (toU32 (((Memory.new.write 0 0).writeMasked 0 8 0xFFFFFFFF).read 0)) 0
      ≠ byteLane 0 0 := by
  decide

/-- C3: after the full-word `write(a, v)`, `read(a)` returns `v`: the `int`
returned is the two's-complement reading of `v`, and as a 32-bit word it is
`v` itself, for every memory state (mapped or not, any `logStores`). -/
theorem read_after_write (m : Memory) (a v : Nat) (hv : v < 4294967296) :
    (m.write a v).read a = toI32 v ∧ toU32 ((m.write a v).read a) = v := by
  rw [Memory.read_write_same]
  exact ⟨rfl, toU32_toI32 v hv⟩

theorem read_after_write_witness :
    (0xDEADBEEF : Nat) < 4294967296 ∧
    ((Memory.new.write 4 0xDEADBEEF).read 4 = toI32 0xDEADBEEF ∧
      toU32 ((Memory.new.write 4 0xDEADBEEF).read 4) = 0xDEADBEEF) :=
  ⟨by decide, read_after_write Memory.new 4 0xDEADBEEF (by decide)⟩

/-- C4: an address that is not a key of the map reads as the current
`defaultVal`; on a freshly constructed memory every address reads as `0`. -/
theorem read_unmapped (m : Memory) (a : Nat) (h : m.mem a = none) :
    m.read a = m.defaultVal ∧ ∀ b : Nat, Memory.new.read b = 0 := by
  refine ⟨?_, fun b => rfl⟩
  simp [Memory.read, h]

theorem read_unmapped_witness :
    ({ Memory.new with defaultVal := -7 } : Memory).mem 12 = none ∧
    (({ Memory.new with defaultVal := -7 } : Memory).read 12 = -7 ∧
      ∀ b : Nat, Memory.new.read b = 0) :=
  ⟨rfl, read_unmapped { Memory.new with defaultVal := -7 } 12 rfl⟩

/-- C5: the masked write with byte enable `0` returns the memory object
unchanged: same map, same fields, same store log, hence the same `read` at
every address. -/
theorem writeMasked_zero_noop (m : Memory) (a v : Nat) :
    m.writeMasked a 0 v = m ∧
    (m.writeMasked a 0 v).mem = m.mem ∧
    (m.writeMasked a 0 v).cout = m.cout ∧
    ∀ b : Nat, (m.writeMasked a 0 v).read b = m.read b := by
  have h : m.writeMasked a 0 v = m := by simp [Memory.writeMasked]
  rw [h]
  exact ⟨rfl, rfl, rfl, fun _ => rfl⟩

/-- C6: loading a text made of `n ≤ 2^30` hexadecimal 32-bit words (whitespace
separated, optional leading whitespace) at base `b` leaves word `i` readable at
`(b + 4 * i) mod 2^32` for every `i < n`, and leaves `read` unchanged at every
other address. -/
theorem loadFile_words (m : Memory) (b : Nat) (lead : List Char)
    (items : List (List Char × List Char)) (hb : b < 4294967296)
    (hlead : lead.all isSpace = true) (hv : validImage items = true)
    (hn : items.length ≤ 1073741824) :
    (∀ (i : Nat) (hi : i < items.length),
        toU32 ((m.loadFile (lead ++ imageText items) b).read ((b + 4 * i) % 4294967296))
          = hexValue (items.get ⟨i, hi⟩).1) ∧
    (∀ c : Nat, (∀ i, i < items.length → c ≠ (b + 4 * i) % 4294967296) →
        (m.loadFile (lead ++ imageText items) b).read c = m.read c) := by
  have hl : ∀ c ∈ lead, isSpace c = true := by simpa [List.all_eq_true] using hlead
  rw [Memory.loadFile_image_eq m lead items b hl hv]
  constructor
  · intro i hi
    have hi2 : i < (imageWords items).length := by simpa [imageWords] using hi
    rw [Memory.read_writeWords_same (imageWords items) m b i hi2 hb
      (by simpa [imageWords] using hn)]
    have hget : (imageWords items).get ⟨i, hi2⟩ = hexValue (items.get ⟨i, hi⟩).1 := by
      simp [imageWords]
    rw [hget]
    exact toU32_toI32 _
      (isWord_value_lt _ (isWord_of_mem items hv _ (List.get_mem items i hi)))
  · intro c hc
    exact Memory.read_writeWords_other (imageWords items) m b c hb
      (by simpa [imageWords] using hc)

theorem loadFile_words_witness :
    toU32 ((Memory.new.loadFile "00000001 00000002".toList 0).read 0) = 1 ∧
    toU32 ((Memory.new.loadFile "00000001 00000002".toList 0).read 4) = 2 ∧
    ∀ c : Nat, c ≠ 0 → c ≠ 4 →
      (Memory.new.loadFile "00000001 00000002".toList 0).read c = Memory.new.read c := by
  have h := loadFile_words Memory.new 0 []
    [("00000001".toList, " ".toList), ("00000002".toList, [])]
    (by decide) (by decide) (by decide) (by decide)
  refine ⟨h.1 0 (by decide), h.1 1 (by decide), ?_⟩
  intro c h0 h4
  apply h.2 c
  intro i hi
  have hi2 : i < 2 := hi
  interval_cases i
  · simpa using h0
  · simpa using h4

/-! ## Claims on the Wishbone responder -/

/-- C2 (code defect): retiring a pending write with `wb_sel = 0xF` and
`wb_datw = 0x12345678` at address `0` stores `0x0000000F`, the value of
`wb_sel`, because the call passes `wb_datw` as byte enable and `wb_sel` as
data; the masked write with `wb_sel` as byte enable and `wb_datw` as data
stores `0x12345678`. -/
theorem retire_write_swapped_arguments :
    toU32 ((wbStep writePendingState fullWriteLines).mem.read 0) = 0xF ∧
    toU32 ((writePendingState.mem.writeMasked 0 0xF 0x12345678).read 0) = 0x12345678 ∧
    (wbStep writePendingState fullWriteLines).mem.read 0
      ≠ (writePendingState.mem.writeMasked 0 0xF 0x12345678).read 0 := by
  decide

/-- C8 (counterexample): a read accepted while the address line holds `0` and
retired while it holds `4` drives the word at `4` (`0x22222222`) onto the
read-data line, not the word at the address of acceptance (`0x11111111`). -/
theorem read_data_not_captured :
    (wbStep idleTwoWords (readLines 0)).wbRdPending = true ∧
    (wbStep (wbStep idleTwoWords (readLines 0)) (quietLines 4)).wb_datr = 0x22222222 ∧
    toU32 (idleTwoWords.mem.read 0) = 0x11111111 ∧
    (wbStep (wbStep idleTwoWords (readLines 0)) (quietLines 4)).wb_datr
      ≠ toU32 (idleTwoWords.mem.read 0) := by
  decide

/-- C8 (amended): when a read is accepted at a boundary (a read is pending at
the end of that step), the next boundary retires it with acknowledge and
drives the read-data line with the word of the unchanged memory at the address
the address line holds at the retiring boundary; this is the word at the
address of acceptance when the address line still holds that address. -/
theorem read_data_live_address (s : Wb) (o1 o2 : WbOut)
    (hacc : (wbStep s o1).wbRdPending = true) :
    (wbStep (wbStep s o1) o2).wb_ack = 1 ∧
    (wbStep (wbStep s o1) o2).mem = (wbStep s o1).mem ∧
    (wbStep (wbStep s o1) o2).wb_datr = toU32 ((wbStep s o1).mem.read o2.wb_adr) ∧
    (o2.wb_adr = o1.wb_adr →
      (wbStep (wbStep s o1) o2).wb_datr = toU32 ((wbStep s o1).mem.read o1.wb_adr)) := by
  generalize wbStep s o1 = s1 at hacc ⊢
  have hd : (wbStep s1 o2).wb_datr = toU32 (s1.mem.read o2.wb_adr) := by
    simp only [wbStep, wbRetire, wbSample, hacc]
    cases o2.wb_cyc <;> cases o2.wb_stb <;> cases o2.wb_we <;> cases s1.wbWrPending <;> simp
  refine ⟨?_, ?_, hd, ?_⟩
  · simp only [wbStep, wbRetire, wbSample, hacc]
    cases o2.wb_cyc <;> cases o2.wb_stb <;> cases o2.wb_we <;> cases s1.wbWrPending <;> simp
  · simp only [wbStep, wbRetire, wbSample, hacc]
    cases o2.wb_cyc <;> cases o2.wb_stb <;> cases o2.wb_we <;> cases s1.wbWrPending <;> simp
  · intro ha
    rw [hd, ha]

theorem read_data_live_address_witness :
    (wbStep idleTwoWords (readLines 0)).wbRdPending = true ∧
    ((wbStep (wbStep idleTwoWords (readLines 0)) (quietLines 4)).wb_ack = 1 ∧
    (wbStep (wbStep idleTwoWords (readLines 0)) (quietLines 4)).mem
      = (wbStep idleTwoWords (readLines 0)).mem ∧
    (wbStep (wbStep idleTwoWords (readLines 0)) (quietLines 4)).wb_datr
      = toU32 ((wbStep idleTwoWords (readLines 0)).mem.read (quietLines 4).wb_adr) ∧
    ((quietLines 4).wb_adr = (readLines 0).wb_adr →
      (wbStep (wbStep idleTwoWords (readLines 0)) (quietLines 4)).wb_datr
        = toU32 ((wbStep idleTwoWords (readLines 0)).mem.read (readLines 0).wb_adr))) :=
  ⟨rfl, read_data_live_address idleTwoWords (readLines 0) (quietLines 4) rfl⟩

/-- C9 (code defect): a step that begins with a read pending while cycle-valid
and strobe are asserted does not end in Idle. The retirement clears the flag
before the guard `!wbRdPending && !wbWrPending` of the sampling is tested, so
the guard never blocks: the request is sampled and a read is pending again at
the end of the step; likewise for a pending write. A read request that is held
for two boundaries, as by a device that waits for the acknowledge, is
acknowledged twice. -/
theorem pending_step_samples_request :
    readPendingState.wbRdPending = true ∧
    (wbStep readPendingState (readLines 0)).wbRdPending = true ∧
    (wbStep writePendingState fullWriteLines).wbWrPending = true ∧
    (List.range 6).map (ackAt heldRead idleTwoWords) = [0, 1, 1, 0, 0, 0] := by
  decide

theorem wbStep_idle_quiet (s : Wb) (o : WbOut)
    (hidle : s.wbRdPending = false ∧ s.wbWrPending = false)
    (hq : ¬ (o.wb_cyc = true ∧ o.wb_stb = true)) :
    ((wbStep s o).wbRdPending = false ∧ (wbStep s o).wbWrPending = false) ∧
      (wbStep s o).wb_ack = 0 := by
  obtain ⟨h1, h2⟩ := hidle
  simp only [wbStep, wbRetire, wbSample, h1, h2]
  cases hc : o.wb_cyc <;> cases hs : o.wb_stb <;> simp [hc, hs] at hq ⊢

theorem wbStep_idle_read (s : Wb) (o : WbOut)
    (hidle : s.wbRdPending = false ∧ s.wbWrPending = false)
    (hreq : o.wb_cyc = true ∧ o.wb_stb = true ∧ o.wb_we = false) :
    ((wbStep s o).wbRdPending = true ∧ (wbStep s o).wbWrPending = false) ∧
      (wbStep s o).wb_ack = 0 := by
  obtain ⟨h1, h2⟩ := hidle
  obtain ⟨h3, h4, h5⟩ := hreq
  simp [wbStep, wbRetire, wbSample, h1, h2, h3, h4, h5]

theorem wbStep_read_quiet (s : Wb) (o : WbOut)
    (hrd : s.wbRdPending = true ∧ s.wbWrPending = false)
    (hq : ¬ (o.wb_cyc = true ∧ o.wb_stb = true)) :
    ((wbStep s o).wbRdPending = false ∧ (wbStep s o).wbWrPending = false) ∧
      (wbStep s o).wb_ack = 1 := by
  obtain ⟨h1, h2⟩ := hrd
  simp only [wbStep, wbRetire, wbSample, h1, h2]
  cases hc : o.wb_cyc <;> cases hs : o.wb_stb <;> simp [hc, hs] at hq ⊢

/-- C7: from Idle, when a read request (cycle-valid and strobe asserted,
write-enable clear) is present at boundary `k` and at no other boundary are
cycle-valid and strobe both asserted, `wb_ack` is driven to `1` at boundary
`k + 1` and to `0` at every other boundary. -/
theorem single_read_ack_once (inp : Nat → WbOut) (s0 : Wb) (k : Nat)
    (hidle : s0.wbRdPending = false ∧ s0.wbWrPending = false)
    (hk : (inp k).wb_cyc = true ∧ (inp k).wb_stb = true ∧ (inp k).wb_we = false)
    (hother : ∀ n, n ≠ k → ¬ ((inp n).wb_cyc = true ∧ (inp n).wb_stb = true)) :
    ∀ n, ackAt inp s0 n = if n = k + 1 then 1 else 0 := by
  have hbefore : ∀ n, n ≤ k →
      (wbAt inp s0 n).wbRdPending = false ∧ (wbAt inp s0 n).wbWrPending = false := by
    intro n
    induction n with
    | zero => intro _; exact hidle
    | succ n ih =>
      intro hn
      exact (wbStep_idle_quiet _ (inp n) (ih (by omega)) (hother n (by omega))).1
  have hat : (wbAt inp s0 (k + 1)).wbRdPending = true ∧
      (wbAt inp s0 (k + 1)).wbWrPending = false :=
    (wbStep_idle_read _ (inp k) (hbefore k (le_refl k)) hk).1
  have hafter : ∀ j,
      (wbAt inp s0 (k + 2 + j)).wbRdPending = false ∧
        (wbAt inp s0 (k + 2 + j)).wbWrPending = false := by
    intro j
    induction j with
    | zero => exact (wbStep_read_quiet _ (inp (k + 1)) hat (hother (k + 1) (by omega))).1
    | succ j ih =>
      exact (wbStep_idle_quiet _ (inp (k + 2 + j)) ih (hother (k + 2 + j) (by omega))).1
  intro n
  unfold ackAt
  rcases Nat.lt_trichotomy n (k + 1) with hlt | heq | hgt
  · rw [if_neg (by omega)]
    by_cases hnk : n = k
    · subst hnk
      exact (wbStep_idle_read _ (inp n) (hbefore n (le_refl n)) hk).2
    · exact (wbStep_idle_quiet _ (inp n) (hbefore n (by omega)) (hother n hnk)).2
  · subst heq
    rw [if_pos rfl]
    exact (wbStep_read_quiet _ (inp (k + 1)) hat (hother (k + 1) (by omega))).2
  · rw [if_neg (by omega)]
    obtain ⟨j, rfl⟩ : ∃ j, n = k + 2 + j := ⟨n - (k + 2), by omega⟩
    exact (wbStep_idle_quiet _ (inp (k + 2 + j)) (hafter j) (hother (k + 2 + j) (by omega))).2

theorem single_read_ack_once_witness :
    ackAt readAtTwo idleTwoWords 2 = 0 ∧ ackAt readAtTwo idleTwoWords 3 = 1 ∧
    ackAt readAtTwo idleTwoWords 4 = 0 ∧
    ∀ n, ackAt readAtTwo idleTwoWords n = if n = 2 + 1 then 1 else 0 := by
  have h := single_read_ack_once readAtTwo idleTwoWords 2 ⟨rfl, rfl⟩ ⟨rfl, rfl, rfl⟩
    (fun n hn => by simp [readAtTwo, hn, quietLines])
  exact ⟨h 2, h 3, h 4, h⟩

/-! ## Claims on the run loop -/

theorem loopBody_tick {σ : Type} (D : Va2owb σ) (s : Sim σ) :
    (loopBody D s).tick = (s.tick + 1) % 4294967296 := by
  simp only [loopBody]
  split_ifs <;> rfl

theorem loopBody_cycle {σ : Type} (D : Va2owb σ) (s : Sim σ) :
    (loopBody D s).cycle
      = if (s.tick + 1) % 4294967296 % 4 = 0 then (s.cycle + 1) % 4294967296 else s.cycle := by
  simp only [loopBody, ticks1x]
  split_ifs <;> rfl

/-- From a state whose cycle counter is in `1..limit`, the loop leaves through
the cycle ceiling after `4 * (limit - cycle) + (4 - tick % 4)` iterations, with
`cycle = limit + 1`; more fuel does not change the result. -/
theorem runLoop_reaches {σ : Type} (D : Va2owb σ) (limit : Nat) (hN : limit < 2147483648)
    (hfin : ∀ d, D.gotFinish d = false) :
    ∀ (r : Nat) (s : Sim σ), 1 ≤ s.cycle → s.cycle ≤ limit →
      r = 4 * (limit - s.cycle) + (4 - s.tick % 4) →
      ∃ s1 : Sim σ, s1.cycle = limit + 1 ∧
        ∀ extra, runLoop D limit (r + extra) s = some s1 := by
  intro r
  induction r with
  | zero => intro s _ _ hr; omega
  | succ r ih =>
    intro s h1 h2 hr
    have ht := loopBody_tick D s
    have hc := loopBody_cycle D s
    by_cases hexit : (loopBody D s).cycle > limit
    · refine ⟨loopBody D s, ?_, ?_⟩
      · split_ifs at hc <;> omega
      · intro extra
        have hf : r + 1 + extra = (r + extra) + 1 := by omega
        rw [hf]
        simp only [runLoop, hfin, if_pos hexit]
        simp
    · obtain ⟨s1, hs1, hrun⟩ := ih (loopBody D s)
        (by split_ifs at hc <;> omega) (by omega)
        (by split_ifs at hc <;> omega)
      refine ⟨s1, hs1, ?_⟩
      intro extra
      have hf : r + 1 + extra = (r + extra) + 1 := by omega
      rw [hf]
      simp only [runLoop, hfin, if_neg hexit]
      simpa using hrun extra

/-- C10: with cycle ceiling `limit` (a non-negative `int`) and a device that
never signals completion, the run loop terminates: some number of iterations
reaches the exit (and any larger fuel gives the same final state), and at exit
the bus-cycle counter equals `limit + 1`. -/
theorem run_terminates_at_ceiling {σ : Type} (D : Va2owb σ) (file : List Char) (dev0 : σ)
    (p0 : TbIn) (limit : Nat) (hN : limit < 2147483648)
    (hfin : ∀ d, D.gotFinish d = false) :
    ∃ (fuel : Nat) (s1 : Sim σ),
      (∀ extra, runLoop D limit (fuel + extra) (initSim file dev0 p0) = some s1) ∧
        s1.cycle = limit + 1 := by
  by_cases h0 : limit = 0
  · subst h0
    refine ⟨1, loopBody D (initSim file dev0 p0), ?_, ?_⟩
    · intro extra
      have hc := loopBody_cycle D (initSim file dev0 p0)
      have hexit : (loopBody D (initSim file dev0 p0)).cycle > 0 := by
        rw [hc]; simp [initSim]
      have hf : 1 + extra = extra + 1 := by omega
      rw [hf]
      simp only [runLoop, hfin, if_pos hexit]
      simp
    · rw [loopBody_cycle]; simp [initSim]
  · obtain ⟨s1, hs1, hrun⟩ := runLoop_reaches D limit hN hfin (4 * limit)
      (initSim file dev0 p0) (by simp [initSim]) (by simp [initSim]; omega)
      (by simp [initSim]; omega)
    exact ⟨4 * limit, s1, hrun, hs1⟩

theorem run_terminates_at_ceiling_witness :
    (3 : Nat) < 2147483648 ∧ (∀ d, quietDevice.gotFinish d = false) ∧
    (∃ (fuel : Nat) (s1 : Sim Unit),
      (∀ extra, runLoop quietDevice 3 (fuel + extra)
          (initSim "00000001 00000002".toList () zeroPins) = some s1) ∧
        s1.cycle = 3 + 1) ∧
    (runLoop quietDevice 3 12 (initSim "00000001 00000002".toList () zeroPins)).map
        (fun s => s.cycle) = some 4 ∧
    (runLoop quietDevice 3 11 (initSim "00000001 00000002".toList () zeroPins)).isNone
        = true :=
  ⟨by decide, fun _ => rfl,
    run_terminates_at_ceiling quietDevice "00000001 00000002".toList () zeroPins 3
      (by decide) (fun _ => rfl),
    by decide, by decide⟩

/-! ## Further claims on the memory model -/

/-- C13: `read` leaves the memory object as it was, for mapped and unmapped
addresses alike (the map access `mem[adr]` is only reached for a key that
exists, so nothing is inserted); it returns the value of the pure `read`, and
every later read, also after `defaultVal` has been changed, is what it would
have been without that read. -/
theorem read_does_not_mutate (m : Memory) (a : Nat) :
    (m.readM a).2 = m ∧ (m.readM a).2.mem = m.mem ∧ (m.readM a).1 = m.read a ∧
    ∀ (d : Int) (b : Nat),
      ({ (m.readM a).2 with defaultVal := d } : Memory).read b
        = ({ m with defaultVal := d } : Memory).read b := by
  have h : m.readM a = (m.read a, m) := by
    unfold Memory.readM Memory.index Memory.read
    cases hm : m.mem a <;> simp
  rw [h]
  exact ⟨rfl, rfl, rfl, fun _ _ => rfl⟩

theorem decodeMask_eq_laneMask (be : Nat) (h1 : 1 ≤ be) (h2 : be ≤ 15) :
    Memory.decodeMask be = laneMask be := by
  interval_cases be <;> decide

theorem merged_lt (x d M : Nat) (hx : x < 4294967296) (hd : d < 4294967296) :
    (x &&& not32 M) ||| (d &&& M) < 4294967296 := by
  have h1 : x &&& not32 M < 2 ^ 32 := lt_of_le_of_lt Nat.and_le_left (by simpa using hx)
  have h2 : d &&& M < 2 ^ 32 := lt_of_le_of_lt Nat.and_le_left (by simpa using hd)
  simpa using Nat.or_lt_two_pow h1 h2

theorem toU32_lt (i : Int) : toU32 i < 4294967296 := by
  unfold toU32
  omega

theorem Memory.read_writeMasked_same (m : Memory) (a be d : Nat) (hbe : be ≠ 0) :
    (m.writeMasked a be d).read a
      = toI32 ((toU32 (m.read a) &&& not32 (Memory.decodeMask be))
          ||| (d &&& Memory.decodeMask be)) := by
  simp [Memory.writeMasked, hbe, Memory.read_logStore, Memory.read_store_same]

theorem Memory.read_writeMasked_other (m : Memory) (a be d b : Nat) (h : b ≠ a) :
    (m.writeMasked a be d).read b = m.read b := by
  unfold Memory.writeMasked
  by_cases hbe : be = 0
  · rw [if_pos hbe]
  · rw [if_neg hbe]
    simp [Memory.read_logStore, Memory.read_store_other, h]

/-- C17: for a byte enable in `1..15` the masked write leaves
`read(a) = (s & ~M) | (d & M)` as 32-bit words, where `s` is the word read
before and `M` is the mask decoded by the code; `M` is the lane mask that
always contains `0x000000FF` and contains `0xFF000000`, `0x00FF0000`,
`0x0000FF00` exactly when bit 3, bit 2, bit 1 of the byte enable is set. -/
theorem masked_write_merge (m : Memory) (a d be : Nat) (hd : d < 4294967296)
    (h1 : 1 ≤ be) (h2 : be ≤ 15) :
    Memory.decodeMask be = laneMask be ∧
    laneMask be &&& 0x000000FF = 0x000000FF ∧
    (laneMask be &&& 0xFF000000 = 0xFF000000 ↔ be.testBit 3 = true) ∧
    (laneMask be &&& 0x00FF0000 = 0x00FF0000 ↔ be.testBit 2 = true) ∧
    (laneMask be &&& 0x0000FF00 = 0x0000FF00 ↔ be.testBit 1 = true) ∧
    toU32 ((m.writeMasked a be d).read a)
      = (toU32 (m.read a) &&& not32 (laneMask be)) ||| (d &&& laneMask be) := by
  have hM := decodeMask_eq_laneMask be h1 h2
  refine ⟨hM, ?_, ?_, ?_, ?_, ?_⟩
  · interval_cases be <;> decide
  · interval_cases be <;> decide
  · interval_cases be <;> decide
  · interval_cases be <;> decide
  · rw [Memory.read_writeMasked_same m a be d (by omega), hM]
    exact toU32_toI32 _ (merged_lt _ d _ (toU32_lt _) hd)

theorem masked_write_merge_witness :
    (0xAABBCCDD : Nat) < 4294967296 ∧ 1 ≤ 4 ∧ 4 ≤ 15 ∧
    toU32 (((Memory.new.write 8 0x11223344).writeMasked 8 4 0xAABBCCDD).read 8)
      = 0x11BB33DD ∧
    (Memory.decodeMask 4 = laneMask 4 ∧
    laneMask 4 &&& 0x000000FF = 0x000000FF ∧
    (laneMask 4 &&& 0xFF000000 = 0xFF000000 ↔ Nat.testBit 4 3 = true) ∧
    (laneMask 4 &&& 0x00FF0000 = 0x00FF0000 ↔ Nat.testBit 4 2 = true) ∧
    (laneMask 4 &&& 0x0000FF00 = 0x0000FF00 ↔ Nat.testBit 4 1 = true) ∧
    toU32 (((Memory.new.write 8 0x11223344).writeMasked 8 4 0xAABBCCDD).read 8)
      = (toU32 ((Memory.new.write 8 0x11223344).read 8) &&& not32 (laneMask 4))
          ||| (0xAABBCCDD &&& laneMask 4)) :=
  ⟨by decide, by decide, by decide, by decide,
    masked_write_merge (Memory.new.write 8 0x11223344) 8 0xAABBCCDD 4
      (by decide) (by decide) (by decide)⟩

/-- C19: a full-word write and a masked write at address `a` leave `read(b)`
unchanged for every other address `b`, whatever the distance between `a` and
`b`: each address is a key of its own. -/
theorem write_frame (m : Memory) (a b v be : Nat) (hab : a ≠ b) :
    (m.write a v).read b = m.read b ∧ (m.writeMasked a be v).read b = m.read b :=
  ⟨Memory.read_write_other m a v b (Ne.symm hab),
    Memory.read_writeMasked_other m a be v b (Ne.symm hab)⟩

theorem write_frame_witness :
    (0 : Nat) ≠ 1 ∧
    (((Memory.new.write 1 0x55).write 0 0xFFFFFFFF).read 1 = (Memory.new.write 1 0x55).read 1 ∧
      ((Memory.new.write 1 0x55).writeMasked 0 15 0xFFFFFFFF).read 1
        = (Memory.new.write 1 0x55).read 1) :=
  ⟨by decide, write_frame (Memory.new.write 1 0x55) 0 1 0xFFFFFFFF 15 (by decide)⟩

/-! ## Further claims on the Wishbone responder -/

/-- C15: at a bus-cycle boundary `wb_ack` is driven to `1` exactly when a read
or a write was pending at the start of the step, and to `0` otherwise (so a
step that starts in Idle drives `0`, also when it accepts a request); a
transaction accepted in a step is acknowledged by the next step, whatever the
bus lines are then. -/
theorem ack_iff_pending (s : Wb) (o o2 : WbOut) :
    ((wbStep s o).wb_ack = 1 ↔ (s.wbRdPending = true ∨ s.wbWrPending = true)) ∧
    ((wbStep s o).wb_ack = 0 ↔ (s.wbRdPending = false ∧ s.wbWrPending = false)) ∧
    (((wbStep s o).wbRdPending = true ∨ (wbStep s o).wbWrPending = true) →
      (wbStep (wbStep s o) o2).wb_ack = 1) := by
  have key : ∀ (t : Wb) (p : WbOut),
      ((wbStep t p).wb_ack = 1 ↔ (t.wbRdPending = true ∨ t.wbWrPending = true)) ∧
      ((wbStep t p).wb_ack = 0 ↔ (t.wbRdPending = false ∧ t.wbWrPending = false)) := by
    intro t p
    simp only [wbStep, wbRetire, wbSample]
    cases t.wbRdPending <;> cases t.wbWrPending <;> cases p.wb_cyc <;> cases p.wb_stb <;>
      cases p.wb_we <;> simp
  exact ⟨(key s o).1, (key s o).2, fun h => ((key (wbStep s o) o2).1).2 h⟩

theorem ack_iff_pending_witness :
    (wbStep idleTwoWords (readLines 0)).wb_ack = 0 ∧
    (wbStep idleTwoWords (readLines 0)).wbRdPending = true ∧
    (wbStep (wbStep idleTwoWords (readLines 0)) fullWriteLines).wb_ack = 1 := by
  have h := ack_iff_pending idleTwoWords (readLines 0) fullWriteLines
  exact ⟨h.2.1.2 ⟨rfl, rfl⟩, rfl, h.2.2 (Or.inl rfl)⟩

theorem wbRetire_not_both (s : Wb) (o : WbOut)
    (h : ¬ (s.wbRdPending = true ∧ s.wbWrPending = true)) :
    (wbRetire s o).wbRdPending = false ∧ (wbRetire s o).wbWrPending = false := by
  simp only [wbRetire]
  cases h1 : s.wbRdPending <;> cases h2 : s.wbWrPending <;> simp [h1, h2] at h ⊢

theorem wbSample_not_both (s : Wb) (o : WbOut)
    (h : s.wbRdPending = false ∧ s.wbWrPending = false) :
    ¬ ((wbSample s o).wbRdPending = true ∧ (wbSample s o).wbWrPending = true) := by
  obtain ⟨h1, h2⟩ := h
  simp only [wbSample, h1, h2]
  cases o.wb_cyc <;> cases o.wb_stb <;> cases o.wb_we <;> simp [h1, h2]

theorem wbSample_accepts_only_idle (s : Wb) (o : WbOut)
    (h : (wbSample s o).wbRdPending ≠ s.wbRdPending ∨
      (wbSample s o).wbWrPending ≠ s.wbWrPending) :
    s.wbRdPending = false ∧ s.wbWrPending = false := by
  simp only [wbSample] at h
  cases h1 : s.wbRdPending <;> cases h2 : s.wbWrPending <;> simp [h1, h2] at h ⊢

/-- C16: from a state with both flags false, under any sequence of bus-line
values, no state has `wbRdPending` and `wbWrPending` both true; in every step
both flags are false at the sampling point (after the retirement), and the
sampling changes a flag, that is accepts a request, only when both flags are
false there. -/
theorem at_most_one_pending (inp : Nat → WbOut) (s0 : Wb)
    (hidle : s0.wbRdPending = false ∧ s0.wbWrPending = false) (n : Nat) :
    ¬ ((wbAt inp s0 n).wbRdPending = true ∧ (wbAt inp s0 n).wbWrPending = true) ∧
    ((wbRetire (wbAt inp s0 n) (inp n)).wbRdPending = false ∧
      (wbRetire (wbAt inp s0 n) (inp n)).wbWrPending = false) ∧
    (∀ (s : Wb) (o : WbOut),
      ((wbSample s o).wbRdPending ≠ s.wbRdPending ∨
        (wbSample s o).wbWrPending ≠ s.wbWrPending) →
      s.wbRdPending = false ∧ s.wbWrPending = false) := by
  have hinv : ∀ k,
      ¬ ((wbAt inp s0 k).wbRdPending = true ∧ (wbAt inp s0 k).wbWrPending = true) := by
    intro k
    induction k with
    | zero =>
      simp only [wbAt]
      rw [hidle.1]
      simp
    | succ k ih =>
      simp only [wbAt, wbStep]
      exact wbSample_not_both _ _ (wbRetire_not_both _ _ ih)
  exact ⟨hinv n, wbRetire_not_both _ _ (hinv n), wbSample_accepts_only_idle⟩

theorem at_most_one_pending_witness :
    (wbAt busyLines idleState 3).wbRdPending = true ∧
    (wbAt busyLines idleState 3).wbWrPending = false ∧
    (¬ ((wbAt busyLines idleState 3).wbRdPending = true ∧
        (wbAt busyLines idleState 3).wbWrPending = true) ∧
    ((wbRetire (wbAt busyLines idleState 3) (busyLines 3)).wbRdPending = false ∧
      (wbRetire (wbAt busyLines idleState 3) (busyLines 3)).wbWrPending = false) ∧
    (∀ (s : Wb) (o : WbOut),
      ((wbSample s o).wbRdPending ≠ s.wbRdPending ∨
        (wbSample s o).wbWrPending ≠ s.wbWrPending) →
      s.wbRdPending = false ∧ s.wbWrPending = false)) :=
  ⟨by decide, by decide, at_most_one_pending busyLines idleState ⟨rfl, rfl⟩ 3⟩

/-! ## Claims on the clock phases -/

theorem clk_at_mod (t : Nat) :
    clk_1x_at t = clk_1x_at (t % 4) ∧ clk_2x_at t = clk_2x_at (t % 4) := by
  simp [clk_1x_at, clk_2x_at, ticks1x]

theorem clk_step_cases (t : Nat) :
    (t % 4 = 0 ∧ (t + 1) % 4 = 1) ∨ (t % 4 = 1 ∧ (t + 1) % 4 = 2) ∨
      (t % 4 = 2 ∧ (t + 1) % 4 = 3) ∨ (t % 4 = 3 ∧ (t + 1) % 4 = 0) := by
  omega

theorem clk_2x_toggles (t : Nat) : clk_2x_at (t + 1) ≠ clk_2x_at t := by
  rw [(clk_at_mod (t + 1)).2, (clk_at_mod t).2]
  rcases clk_step_cases t with h | h | h | h <;> rw [h.1, h.2] <;> decide

theorem clk_1x_toggles_iff (t : Nat) : clk_1x_at (t + 1) ≠ clk_1x_at t ↔ t % 2 = 1 := by
  have v0 : clk_1x_at 0 = 1 := by decide
  have v1 : clk_1x_at 1 = 1 := by decide
  have v2 : clk_1x_at 2 = 0 := by decide
  have v3 : clk_1x_at 3 = 0 := by decide
  rw [(clk_at_mod (t + 1)).1, (clk_at_mod t).1]
  rcases clk_step_cases t with h | h | h | h <;> rw [h.1, h.2] <;>
    simp only [v0, v1, v2, v3] <;> omega

theorem transitions_four (f : Nat → Nat) (t : Nat) :
    transitions f t 4
      = (if f (t + 1) = f t then 0 else 1) + (if f (t + 2) = f (t + 1) then 0 else 1)
        + (if f (t + 3) = f (t + 2) then 0 else 1)
        + (if f (t + 4) = f (t + 3) then 0 else 1) := by
  simp only [transitions, List.range_succ, List.range_zero, List.nil_append, List.cons_append,
    List.filter_cons, List.filter_nil, Nat.add_zero, decide_not, Bool.not_eq_true',
    decide_eq_false_iff_not]
  split_ifs <;> rfl

/-- C12: with `clk_1x(t) = clocks[t mod 4] >> 1` and
`clk_2x(t) = clocks[t mod 4] & 1`, the 2x clock changes at every tick step, the
1x clock changes exactly at the steps from an odd tick, and in every window of
four consecutive tick steps the 2x clock makes 4 transitions and the 1x clock
makes 2. -/
theorem clock_ratio (t : Nat) :
    clk_2x_at (t + 1) ≠ clk_2x_at t ∧
    (clk_1x_at (t + 1) ≠ clk_1x_at t ↔ t % 2 = 1) ∧
    transitions clk_2x_at t 4 = 4 ∧ transitions clk_1x_at t 4 = 2 := by
  refine ⟨clk_2x_toggles t, clk_1x_toggles_iff t, ?_, ?_⟩
  · rw [transitions_four, if_neg (clk_2x_toggles t), if_neg (clk_2x_toggles (t + 1)),
      if_neg (clk_2x_toggles (t + 2)), if_neg (clk_2x_toggles (t + 3))]
  · have h0 := clk_1x_toggles_iff t
    have h1 := clk_1x_toggles_iff (t + 1)
    have h2 := clk_1x_toggles_iff (t + 2)
    have h3 := clk_1x_toggles_iff (t + 3)
    rw [transitions_four]
    rcases Nat.mod_two_eq_zero_or_one t with hp | hp
    · have c0 : clk_1x_at (t + 1) = clk_1x_at t := by
        by_contra hc
        have := h0.1 hc
        omega
      have c1 : clk_1x_at (t + 2) ≠ clk_1x_at (t + 1) := h1.2 (by omega)
      have c2 : clk_1x_at (t + 3) = clk_1x_at (t + 2) := by
        by_contra hc
        have := h2.1 hc
        omega
      have c3 : clk_1x_at (t + 4) ≠ clk_1x_at (t + 3) := h3.2 (by omega)
      rw [if_pos c0, if_neg c1, if_pos c2, if_neg c3]
    · have c0 : clk_1x_at (t + 1) ≠ clk_1x_at t := h0.2 hp
      have c1 : clk_1x_at (t + 2) = clk_1x_at (t + 1) := by
        by_contra hc
        have := h1.1 hc
        omega
      have c2 : clk_1x_at (t + 3) ≠ clk_1x_at (t + 2) := h2.2 (by omega)
      have c3 : clk_1x_at (t + 4) = clk_1x_at (t + 3) := by
        by_contra hc
        have := h3.1 hc
        omega
      rw [if_neg c0, if_pos c1, if_neg c2, if_pos c3]

/-! ## Further claims on the run loop -/

theorem loopBody_dev {σ : Type} (D : Va2owb σ) (s : Sim σ) :
    (loopBody D s).dev = D.eval (preEval s).pins s.dev := by
  simp only [loopBody, preEval]
  split_ifs <;> rfl

theorem loopBody_rst {σ : Type} (D : Va2owb σ) (s : Sim σ) :
    (loopBody D s).rst = (preEval s).rst ∧ (loopBody D s).resetDone = (preEval s).resetDone := by
  simp only [loopBody, preEval]
  split_ifs <;> exact ⟨rfl, rfl⟩

theorem preEval_fields {σ : Type} (s : Sim σ) :
    (preEval s).tick = (s.tick + 1) % 4294967296 ∧ (preEval s).cycle = s.cycle ∧
    (preEval s).clk_1x = clocks (s.tick % 4) >>> 1 ∧
    (preEval s).clk_2x = clocks (s.tick % 4) &&& 1 := by
  simp only [preEval, ticks1x]
  split_ifs <;> exact ⟨rfl, rfl, rfl, rfl⟩

theorem preEval_rst {σ : Type} (s : Sim σ) :
    (preEval s).rst = (if s.resetDone = false ∧ s.cycle > resetCycle then 0 else s.rst) ∧
    (preEval s).resetDone = (s.resetDone || decide (s.cycle > resetCycle)) := by
  simp only [preEval]
  cases h : s.resetDone <;> by_cases hc : s.cycle > resetCycle <;> simp [h, hc]

/-- C18 (counterexample): in the first iteration, which brings the tick counter
to `1`, the device is evaluated with `clk_2x = 1`, the 2x bit of `clocks[0]`,
whereas the entry indexed by the new tick gives `clocks[1] & 1 = 0`. -/
theorem clock_uses_old_tick :
    (preEval (initSim [] zeroPins zeroPins)).tick = 1 ∧
    (loopBody probeDevice (initSim [] zeroPins zeroPins)).dev.clk_2x = 1 ∧
    clocks (1 % 4) &&& 1 = 0 ∧
    (loopBody probeDevice (initSim [] zeroPins zeroPins)).dev.clk_2x ≠ clocks (1 % 4) &&& 1 := by
  decide

/-- C18 (amended): in every loop iteration the device is evaluated with the two
clock bits of the phase-table entry indexed by the tick counter before its
increment: if the iteration brings the tick counter to `n`, the index is
`(n + 3) mod 4`, the residue of `n - 1`. -/
theorem clock_index_before_increment {σ : Type} (D : Va2owb σ) (s : Sim σ) :
    (loopBody D s).dev = D.eval (preEval s).pins s.dev ∧
    (loopBody D s).tick = (preEval s).tick ∧
    (preEval s).tick = (s.tick + 1) % 4294967296 ∧
    (preEval s).pins.clk_1x = clocks (s.tick % 4) >>> 1 ∧
    (preEval s).pins.clk_2x = clocks (s.tick % 4) &&& 1 ∧
    (preEval s).pins.clk_1x = clocks (((preEval s).tick + 3) % 4) >>> 1 ∧
    (preEval s).pins.clk_2x = clocks (((preEval s).tick + 3) % 4) &&& 1 := by
  have hf := preEval_fields s
  have hidx : ((preEval s).tick + 3) % 4 = s.tick % 4 := by
    rw [hf.1]
    omega
  refine ⟨loopBody_dev D s, ?_, hf.1, hf.2.2.1, hf.2.2.2, ?_, ?_⟩
  · rw [loopBody_tick, hf.1]
  · rw [hidx]; exact hf.2.2.1
  · rw [hidx]; exact hf.2.2.2

theorem clock_index_before_increment_witness :
    (loopBody probeDevice (initSim [] zeroPins zeroPins)).dev.clk_1x = 1 ∧
    (loopBody probeDevice (initSim [] zeroPins zeroPins)).dev.clk_2x = 1 ∧
    ((loopBody probeDevice (initSim [] zeroPins zeroPins)).dev
        = probeDevice.eval (preEval (initSim [] zeroPins zeroPins)).pins
            (initSim [] zeroPins zeroPins : Sim TbIn).dev ∧
    (loopBody probeDevice (initSim [] zeroPins zeroPins)).tick
        = (preEval (initSim [] zeroPins zeroPins : Sim TbIn)).tick ∧
    (preEval (initSim [] zeroPins zeroPins : Sim TbIn)).tick
        = ((initSim [] zeroPins zeroPins : Sim TbIn).tick + 1) % 4294967296 ∧
    (preEval (initSim [] zeroPins zeroPins : Sim TbIn)).pins.clk_1x
        = clocks ((initSim [] zeroPins zeroPins : Sim TbIn).tick % 4) >>> 1 ∧
    (preEval (initSim [] zeroPins zeroPins : Sim TbIn)).pins.clk_2x
        = clocks ((initSim [] zeroPins zeroPins : Sim TbIn).tick % 4) &&& 1 ∧
    (preEval (initSim [] zeroPins zeroPins : Sim TbIn)).pins.clk_1x
        = clocks (((preEval (initSim [] zeroPins zeroPins : Sim TbIn)).tick + 3) % 4) >>> 1 ∧
    (preEval (initSim [] zeroPins zeroPins : Sim TbIn)).pins.clk_2x
        = clocks (((preEval (initSim [] zeroPins zeroPins : Sim TbIn)).tick + 3) % 4) &&& 1) :=
  ⟨by decide, by decide,
    clock_index_before_increment probeDevice (initSim [] zeroPins zeroPins)⟩

/-- The reset release at the top of the loop body, on plain numbers: before
pass `j` the flag `resetDone` is set exactly when `41 ≤ j` and the cycle
counter is `1 + j / 4`; after the release test the reset line is `0` exactly
when `40 ≤ j`. -/
theorem reset_release_step (j : Nat) (done : Bool) (c r : Nat)
    (h3 : done = decide (41 ≤ j)) (h2 : c = 1 + j / 4)
    (h4 : r = if 41 ≤ j then 0 else 1) :
    (if done = false ∧ c > resetCycle then 0 else r) = (if 40 ≤ j then 0 else 1) ∧
    (done || decide (c > resetCycle)) = decide (40 ≤ j) := by
  subst h3 h2 h4
  have e : (1 + j / 4 > resetCycle) ↔ 40 ≤ j := by
    unfold resetCycle
    omega
  simp only [e]
  by_cases h40 : 40 ≤ j <;> by_cases h41 : 41 ≤ j <;> first | omega | simp [h40, h41]

/-- The counters and the reset line after `j` passes through the loop body from
the initial state, for every `j` a run can reach. -/
theorem simIter_init {σ : Type} (D : Va2owb σ) (file : List Char) (dev0 : σ) (p0 : TbIn) :
    ∀ j, j ≤ 4 * 2147483648 →
      (simIter D (initSim file dev0 p0) j).tick % 4 = j % 4 ∧
      (simIter D (initSim file dev0 p0) j).cycle = 1 + j / 4 ∧
      (simIter D (initSim file dev0 p0) j).resetDone = decide (41 ≤ j) ∧
      (simIter D (initSim file dev0 p0) j).rst = (if 41 ≤ j then 0 else 1) := by
  intro j
  induction j with
  | zero => intro _; simp [simIter, initSim]
  | succ j ih =>
    intro hj
    obtain ⟨h1, h2, h3, h4⟩ := ih (by omega)
    have ht := loopBody_tick D (simIter D (initSim file dev0 p0) j)
    have hc := loopBody_cycle D (simIter D (initSim file dev0 p0) j)
    have hr := loopBody_rst D (simIter D (initSim file dev0 p0) j)
    have hp := preEval_rst (simIter D (initSim file dev0 p0) j)
    have hs := reset_release_step j _ _ _ h3 h2 h4
    have e41 : (41 ≤ j + 1) ↔ 40 ≤ j := by omega
    simp only [simIter, e41]
    refine ⟨?_, ?_, ?_, ?_⟩
    · rw [ht]; omega
    · rw [hc]; split_ifs <;> omega
    · rw [hr.2, hp.2]; exact hs.2
    · rw [hr.1, hp.1]; exact hs.1

/-- The cycle counter and the reset line at the device evaluation of iteration
`j`. -/
theorem evalAt_init {σ : Type} (D : Va2owb σ) (file : List Char) (dev0 : σ) (p0 : TbIn)
    (j : Nat) (hj : j ≤ 4 * 2147483648) :
    (evalAt D (initSim file dev0 p0) j).cycle = 1 + j / 4 ∧
    (evalAt D (initSim file dev0 p0) j).rst = (if 40 ≤ j then 0 else 1) := by
  obtain ⟨_, h2, h3, h4⟩ := simIter_init D file dev0 p0 j hj
  have hf := preEval_fields (simIter D (initSim file dev0 p0) j)
  have hp := preEval_rst (simIter D (initSim file dev0 p0) j)
  have hs := reset_release_step j _ _ _ h3 h2 h4
  unfold evalAt
  exact ⟨by rw [hf.2.1, h2], by rw [hp.1]; exact hs.1⟩

/-- The evaluations recorded by `runTrace` from the state after `k` passes are
the evaluations of the iterations `k, k + 1, …, k + n - 1`; every pass after
the first is entered with the cycle counter at most `limit`; and when the
device never finishes, the list ends by lack of fuel or by the cycle ceiling. -/
theorem runTrace_eq_map {σ : Type} (D : Va2owb σ) (limit : Nat) (s0 : Sim σ) :
    ∀ (fuel k : Nat), ∃ n,
      runTrace D limit fuel (simIter D s0 k)
        = (List.range n).map (fun i => evalAt D s0 (k + i)) ∧
      (∀ i, 0 < i → i < n → (simIter D s0 (k + i)).cycle ≤ limit) ∧
      ((∀ d, D.gotFinish d = false) →
        n = fuel ∨ (0 < n ∧ (simIter D s0 (k + n)).cycle > limit)) := by
  intro fuel
  induction fuel with
  | zero => intro k; exact ⟨0, rfl, fun i h1 h2 => by omega, fun _ => Or.inl rfl⟩
  | succ fuel ih =>
    intro k
    by_cases hg : D.gotFinish (simIter D s0 k).dev = true
    · refine ⟨0, by simp [runTrace, hg], fun i h1 h2 => by omega, fun hfin => ?_⟩
      rw [hfin] at hg
      cases hg
    · have hstep : loopBody D (simIter D s0 k) = simIter D s0 (k + 1) := rfl
      by_cases hx : (loopBody D (simIter D s0 k)).cycle > limit
      · refine ⟨1, ?_, fun i h1 h2 => by omega, fun _ => ?_⟩
        · simp only [runTrace, if_neg hg, if_pos hx]
          rfl
        exact Or.inr ⟨by omega, by rw [← hstep]; exact hx⟩
      · obtain ⟨n, hn, hc, hend⟩ := ih (k + 1)
        refine ⟨n + 1, ?_, ?_, ?_⟩
        · simp only [runTrace, if_neg hg, if_neg hx]
          rw [hstep, hn, List.range_succ_eq_map, List.map_cons, List.map_map]
          refine congrArg₂ List.cons rfl ?_
          apply List.map_congr_left
          intro i _
          simp only [Function.comp]
          have e : k + 1 + i = k + Nat.succ i := by omega
          rw [e]
        · intro i h1 h2
          by_cases hi : i = 1
          · subst hi
            rw [← hstep]
            omega
          · have h := hc (i - 1) (by omega) (by omega)
            have e : k + 1 + (i - 1) = k + i := by omega
            rw [e] at h
            exact h
        · intro hfin
          rcases hend hfin with h | h
          · exact Or.inl (by omega)
          · refine Or.inr ⟨by omega, ?_⟩
            have e : k + (n + 1) = k + 1 + n := by omega
            rw [e]
            exact h.2

theorem simIter_succ_left {σ : Type} (D : Va2owb σ) (s : Sim σ) :
    ∀ n, simIter D s (n + 1) = simIter D (loopBody D s) n := by
  intro n
  induction n with
  | zero => rfl
  | succ n ih =>
    show loopBody D (simIter D s (n + 1)) = loopBody D (simIter D (loopBody D s) n)
    rw [ih]

/-- When the run loop returns, its final state is the state after as many
passes through the loop body as `runTrace` has recorded evaluations. -/
theorem runLoop_eq_simIter {σ : Type} (D : Va2owb σ) (limit : Nat) :
    ∀ (fuel : Nat) (s s1 : Sim σ), runLoop D limit fuel s = some s1 →
      s1 = simIter D s (runTrace D limit fuel s).length := by
  intro fuel
  induction fuel with
  | zero => intro s s1 h; simp [runLoop] at h
  | succ fuel ih =>
    intro s s1 h
    simp only [runLoop, runTrace] at h ⊢
    by_cases hg : D.gotFinish s.dev = true
    · rw [if_pos hg] at h ⊢
      simp only [Option.some.injEq] at h
      rw [← h]
      rfl
    · rw [if_neg hg] at h ⊢
      by_cases hx : (loopBody D s).cycle > limit
      · rw [if_pos hx] at h ⊢
        simp only [Option.some.injEq] at h
        rw [← h]
        rfl
      · rw [if_neg hx] at h ⊢
        rw [List.length_cons, simIter_succ_left]
        exact ih _ _ h

/-- C11: let `n` be the number of device evaluations of a run under the cycle
ceiling `limit` (when the loop returns, its final state is the state after `n`
passes). Evaluation `j < n` is the call of `eval` of pass `j`, made with the
lines `(evalAt … j).pins`. The reset line among them is `1` when the cycle
counter of that pass is in `1..resetCycle` and `0` when it is at least
`resetCycle + 1`; between two consecutive evaluations the line falls from `1`
to `0` only before evaluation number `4 * resetCycle` and never rises from `0`
to `1`; a run of more than `4 * resetCycle` evaluations contains that fall, and
a run with a ceiling of at least one cycle, a device that never finishes and
enough fuel has `4 * limit` evaluations. -/
theorem reset_asserted_then_released {σ : Type} (D : Va2owb σ) (file : List Char) (dev0 : σ)
    (p0 : TbIn) (limit fuel : Nat) (hN : limit < 2147483648) :
    ∃ n,
      (∀ s1, runLoop D limit fuel (initSim file dev0 p0) = some s1 →
        s1 = simIter D (initSim file dev0 p0) n) ∧
      runTrace D limit fuel (initSim file dev0 p0)
        = (List.range n).map (evalAt D (initSim file dev0 p0)) ∧
      (∀ j, j < n →
        (simIter D (initSim file dev0 p0) (j + 1)).dev
          = D.eval (evalAt D (initSim file dev0 p0) j).pins
              (simIter D (initSim file dev0 p0) j).dev ∧
        ((1 ≤ (simIter D (initSim file dev0 p0) j).cycle ∧
            (simIter D (initSim file dev0 p0) j).cycle ≤ resetCycle) →
          (evalAt D (initSim file dev0 p0) j).pins.rst = 1) ∧
        (resetCycle + 1 ≤ (simIter D (initSim file dev0 p0) j).cycle →
          (evalAt D (initSim file dev0 p0) j).pins.rst = 0)) ∧
      (∀ j, j + 1 < n →
        (((evalAt D (initSim file dev0 p0) j).pins.rst = 1 ∧
            (evalAt D (initSim file dev0 p0) (j + 1)).pins.rst = 0) ↔
          j + 1 = 4 * resetCycle) ∧
        ¬ ((evalAt D (initSim file dev0 p0) j).pins.rst = 0 ∧
            (evalAt D (initSim file dev0 p0) (j + 1)).pins.rst = 1)) ∧
      (4 * resetCycle < n →
        (evalAt D (initSim file dev0 p0) (4 * resetCycle - 1)).pins.rst = 1 ∧
        (evalAt D (initSim file dev0 p0) (4 * resetCycle)).pins.rst = 0) ∧
      ((∀ d, D.gotFinish d = false) → 1 ≤ limit → 4 * limit ≤ fuel → n = 4 * limit) := by
  obtain ⟨n, hn, hc, hend⟩ := runTrace_eq_map D limit (initSim file dev0 p0) fuel 0
  have hn0 : runTrace D limit fuel (initSim file dev0 p0)
      = (List.range n).map (evalAt D (initSim file dev0 p0)) := by
    have h := hn
    simp only [simIter, Nat.zero_add] at h
    exact h
  have hlen : (runTrace D limit fuel (initSim file dev0 p0)).length = n := by
    rw [hn0, List.length_map, List.length_range]
  have hbound : n ≤ 4 * limit ∨ n ≤ 1 := by
    by_contra hcon
    have h1 : 4 * limit < n := by omega
    have h2 : 1 < n := by omega
    by_cases hl : limit = 0
    · have h := hc 1 (by omega) h2
      have hs := (simIter_init D file dev0 p0 (0 + 1) (by omega)).2.1
      rw [hs] at h
      omega
    · have h := hc (4 * limit) (by omega) h1
      have hs := (simIter_init D file dev0 p0 (0 + 4 * limit) (by omega)).2.1
      rw [hs] at h
      omega
  have hr : resetCycle = 10 := rfl
  have hev : ∀ j, j ≤ n →
      (simIter D (initSim file dev0 p0) j).cycle = 1 + j / 4 ∧
      (evalAt D (initSim file dev0 p0) j).pins.rst = (if 40 ≤ j then 0 else 1) :=
    fun j hj => ⟨(simIter_init D file dev0 p0 j (by omega)).2.1,
      (evalAt_init D file dev0 p0 j (by omega)).2⟩
  refine ⟨n, ?_, hn0, ?_, ?_, ?_, ?_⟩
  · intro s1 h
    rw [← hlen]
    exact runLoop_eq_simIter D limit fuel _ s1 h
  · intro j hj
    obtain ⟨h1, h2⟩ := hev j (by omega)
    refine ⟨?_, ?_, ?_⟩
    · show (loopBody D (simIter D (initSim file dev0 p0) j)).dev
        = D.eval (preEval (simIter D (initSim file dev0 p0) j)).pins
            (simIter D (initSim file dev0 p0) j).dev
      simp only [loopBody, preEval]
      split_ifs <;> rfl
    · rw [h1, h2, hr]
      intro h
      rw [if_neg (by omega)]
    · rw [h1, h2, hr]
      intro h
      rw [if_pos (by omega)]
  · intro j hj
    obtain ⟨_, h2⟩ := hev j (by omega)
    obtain ⟨_, h3⟩ := hev (j + 1) (by omega)
    rw [h2, h3, hr]
    by_cases ha : 40 ≤ j <;> by_cases hb : 40 ≤ j + 1 <;> simp [ha, hb] <;> omega
  · intro h
    obtain ⟨_, h2⟩ := hev (4 * resetCycle - 1) (by omega)
    obtain ⟨_, h3⟩ := hev (4 * resetCycle) (by omega)
    rw [h2, h3, hr]
    exact ⟨by decide, by decide⟩
  · intro hfin hl hf
    rcases hend hfin with h | h
    · omega
    · have hs := (simIter_init D file dev0 p0 (0 + n) (by omega)).2.1
      rw [hs] at h
      omega

set_option maxRecDepth 100000 in
theorem reset_asserted_then_released_witness :
    (11 : Nat) < 2147483648 ∧
    (runLoop logDevice 11 50 logInit).map (fun s => s.dev.map (fun p => p.rst))
      = some (List.replicate 40 1 ++ List.replicate 4 0) ∧
    (runLoop logDevice 11 50 logInit).map (fun s => s.cycle) = some 12 ∧
    ∃ n, n = 4 * 11 ∧
      (∀ s1, runLoop logDevice 11 50 logInit = some s1 → s1 = simIter logDevice logInit n) ∧
      (∀ j, j < n →
        (simIter logDevice logInit (j + 1)).dev
          = (simIter logDevice logInit j).dev ++ [(evalAt logDevice logInit j).pins]) ∧
      (evalAt logDevice logInit 39).pins.rst = 1 ∧ (evalAt logDevice logInit 40).pins.rst = 0 := by
  obtain ⟨n, h0, _, h2, _, h4, h5⟩ := reset_asserted_then_released logDevice
    "00000001 00000002".toList [] zeroPins 11 50 (by decide)
  have hn : n = 4 * 11 := h5 (fun _ => rfl) (by decide) (by decide)
  exact ⟨by decide, by decide, by decide, n, hn, h0, fun j hj => (h2 j hj).1,
    h4 (by rw [hn]; decide)⟩

/-! ## Loading stops at the first failed extraction -/

/-- On the text of a valid image whose tokens are all followed by whitespace,
continued by a text at which the extraction fails, the load loop writes
exactly the words of the image. -/
theorem Memory.loadLoop_image_tail (tail : List Char) (htail : extractHex tail = none)
    (items : List (List Char × List Char)) :
    ∀ (fuel : Nat) (m : Memory) (adr : Nat), validImage items = true →
      (∀ it ∈ items, it.2 ≠ []) →
      (imageText items ++ tail).length < fuel →
      Memory.loadLoop fuel m (imageText items ++ tail) adr
        = Memory.writeWords m (imageWords items) adr := by
  induction items with
  | nil =>
    intro fuel m adr _ _ hf
    cases fuel with
    | zero => simp at hf
    | succ k =>
      simp only [imageText, List.nil_append, Memory.loadLoop, htail]
      rfl
  | cons hd rest ih =>
    obtain ⟨tok, sep⟩ := hd
    intro fuel m adr hv hsep hf
    obtain ⟨hw, hsp, _, hrest⟩ := validImage_cons tok sep rest hv
    have hpos := isWord_length_pos tok hw
    have hne : sep ≠ [] := hsep (tok, sep) (List.mem_cons_self _ _)
    have hassoc : imageText ((tok, sep) :: rest) ++ tail
        = tok ++ (sep ++ (imageText rest ++ tail)) := by
      simp [imageText, List.append_assoc]
    rw [hassoc] at hf ⊢
    cases fuel with
    | zero => simp at hf
    | succ k =>
      have hr : ∀ c, (sep ++ (imageText rest ++ tail)).head? = some c → isSpace c = true := by
        intro c hc
        cases sep with
        | nil => exact absurd rfl hne
        | cons d sep =>
          simp only [List.cons_append, List.head?_cons, Option.some.injEq] at hc
          subst hc
          exact hsp d (List.mem_cons_self d sep)
      have hlen : (imageText rest ++ tail).length < k := by
        simp only [List.length_append, Nat.lt_succ_iff] at hf ⊢
        omega
      simp only [Memory.loadLoop, extractHex_word tok _ hw hr]
      rw [Memory.loadLoop_skip k _ sep (imageText rest ++ tail) _ hsp,
        ih k _ _ hrest (fun it hit => hsep it (List.mem_cons_of_mem _ hit)) hlen]
      simp [imageWords, Memory.writeWords]

/-- C14 (counterexample): the token `2zz` is not a hexadecimal word, yet
loading `00000001 2zz` at base `0` writes a second word, `2`, at address `4`
from the leading digit of that token; loading the good token alone leaves
address `4` unmapped. -/
theorem loadFile_partial_token :
    isWord "2zz".toList = false ∧
    toU32 ((Memory.new.loadFile "00000001 2zz".toList 0).read 4) = 2 ∧
    (Memory.new.loadFile "00000001 2zz".toList 0).mem 4 = some 2 ∧
    (Memory.new.loadFile "00000001 ".toList 0).mem 4 = none ∧
    (Memory.new.loadFile "00000001 2zz".toList 0).read 4
      ≠ (Memory.new.loadFile "00000001 ".toList 0).read 4 := by
  decide

/-- C14 (amended): when the good tokens are hexadecimal words, each followed by
whitespace, and the extraction fails at the bad token (on the text `bad ++
rest`), loading the whole text at base `b` gives exactly the memory object that
loading the good tokens alone gives. -/
theorem loadFile_stops_at_bad_token (m : Memory) (b : Nat) (lead : List Char)
    (good : List (List Char × List Char)) (bad rest : List Char)
    (hlead : lead.all isSpace = true) (hv : validImage good = true)
    (hsep : ∀ it ∈ good, it.2 ≠ []) (hbad : extractHex (bad ++ rest) = none) :
    m.loadFile (lead ++ (imageText good ++ (bad ++ rest))) b
      = m.loadFile (lead ++ imageText good) b := by
  have hl : ∀ c ∈ lead, isSpace c = true := by simpa [List.all_eq_true] using hlead
  rw [Memory.loadFile_image_eq m lead good b hl hv]
  unfold Memory.loadFile
  rw [Memory.loadLoop_skip _ m lead _ b hl]
  apply Memory.loadLoop_image_tail (bad ++ rest) hbad good _ m b hv hsep
  simp only [List.length_append]
  omega

theorem loadFile_stops_at_bad_token_witness :
    extractHex ("zz".toList ++ " 00000003".toList) = none ∧
    toU32 ((Memory.new.loadFile "00000001 00000002 zz 00000003".toList 0).read 4) = 2 ∧
    (Memory.new.loadFile "00000001 00000002 zz 00000003".toList 0).mem 8 = none ∧
    Memory.new.loadFile "00000001 00000002 zz 00000003".toList 0
      = Memory.new.loadFile "00000001 00000002 ".toList 0 :=
  ⟨by decide, by decide, by decide,
    loadFile_stops_at_bad_token Memory.new 0 []
      [("00000001".toList, " ".toList), ("00000002".toList, " ".toList)]
      "zz".toList " 00000003".toList (by decide) (by decide) (by decide) (by decide)⟩

end TbLitex
